import Mathlib
/-!
Verification development for the novelkit acquisition-and-processing
pipeline.  The definitions below are a shallow embedding of the Python
source: `ChapterStorage` (infra/persistence/chapter_storage.py), the
download orchestrator (plugins/mixins/download.py), the processing
pipeline (plugins/mixins/process.py), the chapter-id extraction
(plugins/base/client.py) and the token-bucket rate limiter
(plugins/utils/rate_limiter.py).  Machine floats are modelled as
rationals; the sqlite layer is modelled as an association list of rows;
a durable write that may raise is modelled by an explicit success flag.
-/
namespace NovelKit

/-! ## Data model and operations (shallow embedding of the source) -/

/-- A parsed chapter (schemas.ChapterDict).  The open `extra` map is
reduced to the single key the modelled code reads, `extra["next_cid"]`,
used by the id-repair pass. -/
structure Chapter where
  id : String
  title : String
  content : String
  nextCid : Option String
  deriving Repr, DecidableEq

/-! ## Association-list primitives modelling a Python dict / sqlite table -/
/-- Lookup by key, first match wins (keys are kept unique by setAssoc). -/
def getAssoc {α : Type} (l : List (String × α)) (k : String) : Option α :=
  (l.find? (fun p => p.1 == k)).map Prod.snd

/-- Insert-or-replace by key (dict assignment / INSERT OR REPLACE). -/
def setAssoc {α : Type} (l : List (String × α)) (k : String) (v : α) :
    List (String × α) :=
  (k, v) :: l.filter (fun p => !(p.1 == k))

/-- Removal by key (dict pop / DELETE). -/
def delAssoc {α : Type} (l : List (String × α)) (k : String) :
    List (String × α) :=
  l.filter (fun p => !(p.1 == k))

/-! ## ChapterStorage (infra/persistence/chapter_storage.py)

The in-memory refetch index `_refetch_flags` and the durable sqlite rows
are modelled separately so that their (dis)agreement is observable.  A
durable write that may raise takes an explicit `writeOk` flag; on
failure the write has no effect on the rows and the exception
propagates, while any state already mutated by the method survives. -/
structure Storage where
  flags : List (String × Bool)
  rows : List (String × Chapter × Bool)
  deriving Repr, DecidableEq

def Storage.empty : Storage := ⟨[], []⟩

/-- Membership query backed purely by the in-memory index
(`exists` in the source). -/
def Storage.existsId (st : Storage) (cid : String) : Bool :=
  (getAssoc st.flags cid).isSome

/-- Staleness query; an unknown id conservatively reports true. -/
def Storage.need_refetch (st : Storage) (cid : String) : Bool :=
  (getAssoc st.flags cid).getD true

def Storage.existing_ids (st : Storage) : Finset String :=
  (st.flags.map Prod.fst).toFinset

def Storage.clean_ids (st : Storage) : Finset String :=
  ((st.flags.filter (fun p => !p.2)).map Prod.fst).toFinset

def Storage.dirty_ids (st : Storage) : Finset String :=
  ((st.flags.filter (fun p => p.2)).map Prod.fst).toFinset

/-- Source order in upsert_chapter: the sqlite execute+commit happens
first; the in-memory flag is assigned only after it returns.  When the
durable write raises (writeOk = false) neither rows nor flags change. -/
def Storage.upsert_chapter (st : Storage) (data : Chapter) (need : Bool)
    (writeOk : Bool) : Storage × Bool :=
  if writeOk then
    (⟨setAssoc st.flags data.id need,
      setAssoc st.rows data.id (data, need)⟩, true)
  else (st, false)

/-- Source order in upsert_chapters: while the record batch is built,
`_refetch_flags[chap_id] = need_refetch` is assigned for every chapter;
the executemany+commit runs only afterwards.  When the durable write
raises, the already-updated flags survive while the rows do not. -/
def Storage.upsert_chapters (st : Storage) (data : List Chapter)
    (need : Bool) (writeOk : Bool) : Storage × Bool :=
  if data.isEmpty then (st, true)
  else
    let flags1 := data.foldl (fun f ch => setAssoc f ch.id need) st.flags
    if writeOk then
      (⟨flags1, data.foldl (fun r ch => setAssoc r ch.id (ch, need)) st.rows⟩,
       true)
    else (⟨flags1, st.rows⟩, false)

def Storage.get_chapter (st : Storage) (cid : String) : Option Chapter :=
  (getAssoc st.rows cid).map Prod.fst

def Storage.delete_chapter (st : Storage) (cid : String) : Storage :=
  ⟨delAssoc st.flags cid, delAssoc st.rows cid⟩

def Storage.delete_chapters (st : Storage) (cids : List String) : Storage :=
  ⟨cids.foldl delAssoc st.flags, cids.foldl delAssoc st.rows⟩

/-! ## Storage operation traces (claim C8) -/
/-- Mutating operations a caller can run against one store (successful
durable writes; failure paths are analysed separately). -/
inductive StoreOp where
  | upsertOne (ch : Chapter) (need : Bool)
  | upsertMany (chs : List Chapter) (need : Bool)
  | deleteOne (cid : String)
  | deleteMany (cids : List String)
  deriving Repr, DecidableEq

def applyOp (st : Storage) (op : StoreOp) : Storage :=
  match op with
  | .upsertOne ch need => (st.upsert_chapter ch need true).1
  | .upsertMany chs need => (st.upsert_chapters chs need true).1
  | .deleteOne cid => st.delete_chapter cid
  | .deleteMany cids => st.delete_chapters cids

def runOps (ops : List StoreOp) : Storage :=
  ops.foldl applyOp Storage.empty

def opInserts (op : StoreOp) (cid : String) : Bool :=
  match op with
  | .upsertOne ch _ => ch.id == cid
  | .upsertMany chs _ => chs.any (fun ch => ch.id == cid)
  | _ => false

def opDeletes (op : StoreOp) (cid : String) : Bool :=
  match op with
  | .deleteOne c => c == cid
  | .deleteMany cs => cs.any (fun c => c == cid)
  | _ => false

/-- Scanning a trace from the most recent operation backwards: the id
was never inserted, or its most recent insertion is followed by a
deletion.  The argument list is the reversed trace. -/
def absentByTrace (cid : String) : List StoreOp → Bool
  | [] => true
  | op :: earlier =>
    if opInserts op cid then false
    else if opDeletes op cid then true
    else absentByTrace cid earlier

/-! ## Index/row consistency of upserts (claim C6) -/
/-- Agreement, for one id, between the in-memory refetch index and the
need_refetch column of the durable rows: either both report the id
absent, or both report it present with the same flag. -/
def indexRowAgree (st : Storage) (cid : String) : Prop :=
  getAssoc st.flags cid = (getAssoc st.rows cid).map Prod.snd

/-! ## Download-plan extraction (plugins/base/client.py, claim C4) -/
/-- One entry of a declared volume chapter listing; chapterId may be
absent (to be repaired) and a chapter may be marked inaccessible. -/
structure ChapMeta where
  chapterId : Option String
  accessible : Bool
  deriving Repr, DecidableEq

structure Volume where
  chapters : List ChapMeta
  deriving Repr, DecidableEq

/-- Python truthiness of an optional string field: a missing key and an
empty string are both falsy (`if not cid`, `if not next_cid`). -/
def presentId (o : Option String) : Option String :=
  match o with
  | some s => if s = "" then none else some s
  | none => none

/-- Loop body of _extract_chapter_ids.  The nested for-loops with an
early return on end_id are iteration over the concatenated chapter
list; seenStart carries the seen_start flag. -/
def extractGo (startId endId : Option String) (ignore : List String)
    (fetchInacc : Bool) : List ChapMeta → Bool → List String
  | [], _ => []
  | c :: rest, seenStart =>
    match presentId c.chapterId with
    | none => extractGo startId endId ignore fetchInacc rest seenStart
    | some cid =>
      if seenStart = false ∧ startId ≠ some cid then
        extractGo startId endId ignore fetchInacc rest false
      else
        let out :=
          if cid ∉ ignore ∧ (c.accessible = true ∨ fetchInacc = true) then
            [cid]
          else []
        if endId = some cid then out
        else out ++ extractGo startId endId ignore fetchInacc rest true

/-- Shallow embedding of _extract_chapter_ids: seen_start is initially
true exactly when start_id is None. -/
def extract_chapter_ids (vols : List Volume) (startId endId : Option String)
    (ignore : List String) (fetchInacc : Bool) : List String :=
  extractGo startId endId ignore fetchInacc
    ((vols.map Volume.chapters).flatten) startId.isNone

/-- Declared chapter order of a book: every present (nonempty)
chapterId, walking volumes and chapters in order. -/
def declaredOrder (vols : List Volume) : List String :=
  ((vols.map Volume.chapters).flatten).filterMap
    (fun c => presentId c.chapterId)

/-- Spec reading of the plan, first part: drop declared chapters until
start_id is seen (or keep everything when start_id is unset).  A
deliberately separate definition, following the spec's words, to be
compared against the source's extractGo. -/
def specDropUntilStart (startId : Option String) (chs : List ChapMeta) :
    List ChapMeta :=
  match startId with
  | none => chs
  | some s =>
    match chs with
    | [] => []
    | c :: rest =>
      if presentId c.chapterId = some s then c :: rest
      else specDropUntilStart (some s) rest
termination_by chs.length
decreasing_by simp

/-- Spec reading of the plan, second part: keep declared chapters up to
and including the one carrying end_id (or to the end when end_id is
unset). -/
def specTakeThrough (endId : Option String) : List ChapMeta → List ChapMeta
  | [] => []
  | c :: rest =>
    match endId with
    | none => c :: specTakeThrough none rest
    | some e =>
      if presentId c.chapterId = some e then [c]
      else c :: specTakeThrough (some e) rest

/-- Spec reading of the plan, third part: within the window, a chapter
contributes its id exactly when the id is present, not ignored, and the
chapter is accessible or inaccessible fetching is enabled. -/
def specKeep (ignore : List String) (fetchInacc : Bool) (c : ChapMeta) :
    Option String :=
  match presentId c.chapterId with
  | none => none
  | some cid =>
    if cid ∉ ignore ∧ (c.accessible = true ∨ fetchInacc = true) then
      some cid
    else none

/-! ## get_chapter retry loop (plugins/mixins/download.py, claim C3) -/
/-- Outcome of one fetch+parse attempt: a parsed chapter (possibly
None), one of the two classified error conditions, or any other
exception. -/
inductive FetchOutcome where
  | success (chap : Option Chapter)
  | emptyContent
  | restrictedContent
  | otherError
  deriving Repr, DecidableEq

/-- Observable behaviour of one get_chapter call: the returned value,
how many times the fetch function ran, and the backoff delays slept
between attempts, in order. -/
structure FetchTrace where
  result : Option Chapter
  calls : ℕ
  delays : List ℚ
  deriving Repr, DecidableEq

/-- Body of the `for attempt in range(retry_times + 1)` loop: a success
or a classified error returns from the loop at once; any other error
sleeps backoff_factor * 2 ^ attempt and moves to the next attempt while
attempts remain, and merely logs on the last one. -/
def getChapterGo (fetch : ℕ → FetchOutcome) (retryTimes : ℕ) (backoff : ℚ)
    (attempt : ℕ) : FetchTrace :=
  match fetch attempt with
  | .success c => ⟨c, 1, []⟩
  | .emptyContent => ⟨none, 1, []⟩
  | .restrictedContent => ⟨none, 1, []⟩
  | .otherError =>
    if h : attempt < retryTimes then
      let t := getChapterGo fetch retryTimes backoff (attempt + 1)
      ⟨t.result, t.calls + 1, (backoff * 2 ^ attempt) :: t.delays⟩
    else ⟨none, 1, []⟩
termination_by retryTimes + 1 - attempt
decreasing_by omega

def get_chapter (fetch : ℕ → FetchOutcome) (retryTimes : ℕ) (backoff : ℚ) :
    FetchTrace :=
  getChapterGo fetch retryTimes backoff 0

/-! ## Download orchestrator (plugins/mixins/download.py)

The asyncio orchestration is embedded as one canonical sequential
schedule: the id-repair pass, then the producers in plan order, then
the single storage consumer over the enqueued chapters followed by the
stop token.  Claims settled against this model concern only
schedule-independent observables: the final store contents, the final
progress count and the per-item consumer behaviour. -/
/-- State threaded through the consumer and the progress reporting:
the raw store, the two classification batches, and the on_progress
notifications (done values) emitted so far. -/
structure WorkerState where
  store : Storage
  batchF : List Chapter
  batchT : List Chapter
  done : ℕ
  events : List ℕ
  deriving Repr, DecidableEq

/-- Nonlocal `done += n` plus the on_progress(done, total) callback. -/
def bump (ws : WorkerState) (n : ℕ) : WorkerState :=
  { ws with done := ws.done + n, events := ws.events ++ [ws.done + n] }

/-- flush_batch: a nonempty batch is durably upserted with its
classification, the progress bumps by the batch length, and the batch
is cleared.  Durable writes succeed in this model (a failed flush is
logged and the batch discarded; that accepted-loss path is out of the
claims settled here). -/
def flush_batch (ws : WorkerState) (need : Bool) : WorkerState :=
  let batch := if need then ws.batchT else ws.batchF
  if batch.isEmpty then ws
  else
    let ws1 := bump { ws with
      store := (ws.store.upsert_chapters batch need true).1 } batch.length
    if need then { ws1 with batchT := [] } else { ws1 with batchF := [] }

def flush_all (ws : WorkerState) : WorkerState :=
  flush_batch (flush_batch ws false) true

/-- Consumer handling of one dequeued chapter: classify with the
client's _dl_check_refetch predicate, append to the matching batch, and
flush that batch once it reaches the configured batch size. -/
def worker_step (checkRefetch : Chapter → Bool) (batchSize : ℕ)
    (ws : WorkerState) (item : Chapter) : WorkerState :=
  let need := checkRefetch item
  let ws1 :=
    if need then { ws with batchT := ws.batchT ++ [item] }
    else { ws with batchF := ws.batchF ++ [item] }
  let bucket := if need then ws1.batchT else ws1.batchF
  if batchSize ≤ bucket.length then flush_batch ws1 need else ws1

/-- storage_worker: consume every queued item, then flush both batches
on the stop token. -/
def storage_worker (checkRefetch : Chapter → Bool) (batchSize : ℕ)
    (items : List Chapter) (ws : WorkerState) : WorkerState :=
  flush_all (items.foldl (worker_step checkRefetch batchSize) ws)

/-- Collaborators and configuration of one download_book run.  fetch is
the per-chapter result of get_chapter (None when the chapter stays
unavailable after the retry policy). -/
structure DLEnv where
  fetch : String → Option Chapter
  cacheChapter : Bool
  checkRefetch : Chapter → Bool
  batchSize : ℕ

/-- Id-repair walk over one chapter list (_dl_fix_chapter_ids inner
loop): a missing chapterId is recovered from the previous chapter's
cached or freshly fetched extra.next_cid; a freshly fetched repair
chapter is persisted with the default need_refetch = false. -/
def fixChaps (env : DLEnv) :
    List ChapMeta → Storage → String → List ChapMeta × Storage × String
  | [], st, prev => ([], st, prev)
  | c :: rest, st, prev =>
    match presentId c.chapterId with
    | some cid =>
      let r := fixChaps env rest st cid
      (c :: r.1, r.2)
    | none =>
      if prev = "" then
        let r := fixChaps env rest st prev
        (c :: r.1, r.2)
      else
        match st.get_chapter prev with
        | some data =>
          match presentId data.nextCid with
          | some nc =>
            let r := fixChaps env rest st nc
            ({ c with chapterId := some nc } :: r.1, r.2)
          | none =>
            let r := fixChaps env rest st prev
            (c :: r.1, r.2)
        | none =>
          match env.fetch prev with
          | some data =>
            let st1 := (st.upsert_chapter data false true).1
            match presentId data.nextCid with
            | some nc =>
              let r := fixChaps env rest st1 nc
              ({ c with chapterId := some nc } :: r.1, r.2)
            | none =>
              let r := fixChaps env rest st1 prev
              (c :: r.1, r.2)
          | none =>
            let r := fixChaps env rest st prev
            (c :: r.1, r.2)

/-- Id-repair walk over the whole volume listing; prev_cid threads
across volume boundaries. -/
def fixVols (env : DLEnv) :
    List Volume → Storage → String → List Volume × Storage × String
  | [], st, prev => ([], st, prev)
  | v :: rest, st, prev =>
    let r1 := fixChaps env v.chapters st prev
    let r2 := fixVols env rest r1.2.1 r1.2.2
    (⟨r1.1⟩ :: r2.1, r2.2)

/-- Producer pass in plan order: a chapter already held clean is
counted done without refetching when chapter caching is on; otherwise
the fetched chapter (when any) is enqueued for the consumer. -/
def dlProduce (env : DLEnv) (store : Storage) :
    List String → WorkerState → WorkerState × List Chapter
  | [], ws => (ws, [])
  | cid :: rest, ws =>
    if env.cacheChapter = true ∧ store.need_refetch cid = false then
      dlProduce env store rest (bump ws 1)
    else
      match env.fetch cid with
      | some ch =>
        let r := dlProduce env store rest ws
        (r.1, ch :: r.2)
      | none => dlProduce env store rest ws

/-- Observable outcome of download_book: the final raw store, the
on_progress trace, and the plan length (the total reported to the
progress sink). -/
structure DLResult where
  store : Storage
  events : List ℕ
  total : ℕ
  planEmpty : Bool
  deriving Repr, DecidableEq

/-- download_book for one book: repair ids, compute the plan, stop
silently if it is empty, otherwise run producers and the single
storage consumer to completion. -/
def download_book (env : DLEnv) (vols : List Volume)
    (startId endId : Option String) (ignore : List String)
    (fetchInacc : Bool) (st0 : Storage) : DLResult :=
  let fixres := fixVols env vols st0 ""
  let st1 := fixres.2.1
  let plan := extract_chapter_ids fixres.1 startId endId ignore fetchInacc
  if plan.isEmpty then ⟨st1, [], 0, true⟩
  else
    let pres := dlProduce env st1 plan ⟨st1, [], [], 0, []⟩
    let wsF := storage_worker env.checkRefetch env.batchSize pres.2 pres.1
    ⟨wsF.store, wsF.events, plan.length, false⟩

/-- Conserved id set of the consumer: everything either durably stored
or pending in one of the two batches. -/
def wIds (ws : WorkerState) : Finset String :=
  ws.store.existing_ids ∪ (ws.batchF.map Chapter.id).toFinset ∪
    (ws.batchT.map Chapter.id).toFinset

/-- Conserved progress measure: done count plus pending batch items. -/
def wMeasure (ws : WorkerState) : ℕ :=
  ws.done + ws.batchF.length + ws.batchT.length

/-- The last emitted on_progress value is the current done counter
(or no notification was emitted yet and done is still zero). -/
def progressConsistent (ws : WorkerState) : Prop :=
  ws.events.getLast? = some ws.done ∨ (ws.events = [] ∧ ws.done = 0)

/-! ## Claim C1: download completeness -/
/-- Fetch environment for the C1 counterexample: chapter x carries the
back-reference next_cid = y used by the id-repair pass. -/
def cxFetch : String → Option Chapter := fun cid =>
  if cid = "x" then some ⟨"x", "tx", "cx", some "y"⟩
  else if cid = "y" then some ⟨"y", "ty", "cy", none⟩ else none

def cxVols : List Volume := [⟨[⟨some "x", true⟩, ⟨none, true⟩]⟩]

def cxEnv : DLEnv := ⟨cxFetch, false, fun _ => false, 1⟩

/-- Concrete environment for the C1 witness: one declared chapter, no
repair needed, fetch succeeds. -/
def wEnv : DLEnv :=
  ⟨fun cid => if cid = "a" then some ⟨"a", "t", "c", none⟩ else none,
   false, fun _ => false, 1⟩

def wVols : List Volume := [⟨[⟨some "a", true⟩]⟩]

/-- Concrete always-transient fetch for the C3 witness. -/
def wFetchFail : ℕ → FetchOutcome := fun _ => .otherError

/-! ## Processing pipeline (plugins/mixins/process.py) -/
/-- One prior execution record under executed[stage] in pipeline.json;
either key may be missing in a legacy or hand-edited file, which the
source reads with dict.get. -/
structure ExecRecord where
  config_hash : Option String
  depends_on : Option (List String)
  deriving Repr, DecidableEq

/-- _pc_is_incremental.  The config hash of the current options is
computed by the caller-supplied hash function, mirroring
_pc_hash_config applied to the options map. -/
def pc_is_incremental (hashFn : List (String × String) → String)
    (overwrite : Bool) (record : Option ExecRecord) (outputFileOk : Bool)
    (options : List (String × String)) (completed : List String) : Bool :=
  if overwrite then false
  else
    match record with
    | none => false
    | some r =>
      if !outputFileOk then false
      else
        if r.config_hash ≠ some (hashFn options) then false
        else decide (r.depends_on = some completed)

/-- Reusable set of _pc_run_stage: populated only in incremental mode. -/
def pc_reusable (incremental : Bool)
    (outExists cleanUpstream chapSet : Finset String) : Finset String :=
  if incremental then (outExists ∩ cleanUpstream) ∩ chapSet else ∅

def pc_missing_input (chapSet inExists : Finset String) : Finset String :=
  chapSet \ inExists

def pc_to_process (chapSet reusable missingInput : Finset String) :
    Finset String :=
  (chapSet \ reusable) \ missingInput

/-- One configured stage of a process_book run: its registry name, the
book-metadata transform it applies, and whether its _pc_run_stage call
raises (structural failure such as a missing upstream file, or any
exception from the stage body). -/
structure PBStage where
  name : String
  transformVolumes : List Volume → List Volume
  fails : Bool

/-- Arguments _pc_run_stage receives for one stage. -/
structure StageCall where
  name : String
  chapIds : List String
  chapSet : Finset String
  prevOutput : String
  completedBefore : List String
  deriving DecidableEq

/-- The stage loop of process_book: book_info is threaded through each
stage's transform, prev_output and completed_stages are updated after
each successful stage, and the first failing stage aborts the loop
(the exception leaves the for-loop). -/
def pcLoop (chapIds : List String) (chapSet : Finset String) :
    List PBStage → List Volume → String → List String →
    List StageCall × List String × Option String
  | [], _, _, completed => ([], completed, none)
  | s :: rest, vols, prevOut, completed =>
    let call : StageCall := ⟨s.name, chapIds, chapSet, prevOut, completed⟩
    if s.fails then ([call], completed, some s.name)
    else
      let r := pcLoop chapIds chapSet rest (s.transformVolumes vols)
        (String.append (String.append "chapter." s.name) ".sqlite")
        (completed ++ [s.name])
      (call :: r.1, r.2)

/-- Caller-observable outcome of process_book: whether ui.on_missing
fired for the raw stage, the per-stage calls made, the stages recorded
in the ledger, the stage name written to the failure log (if any), and
what process_book propagates to its caller. -/
structure PBResult where
  uiMissingRaw : Bool
  calls : List StageCall
  recorded : List String
  loggedFailure : Option String
  raisedToCaller : Option String

/-- process_book: missing raw inputs report via ui.on_missing and
return before the ledger is touched; the chapter selection is computed
once from the raw metadata; the stage loop runs inside a try/except
that logs any exception with the failing stage name and then returns
normally, so nothing is ever propagated to the caller. -/
def process_book (rawFilesExist : Bool) (rawVolumes : List Volume)
    (startId endId : Option String) (ignore : List String)
    (fetchInacc : Bool) (stages : List PBStage) : PBResult :=
  if !rawFilesExist then ⟨true, [], [], none, none⟩
  else
    let chapIds := extract_chapter_ids rawVolumes startId endId ignore
      fetchInacc
    let chapSet := chapIds.toFinset
    let r := pcLoop chapIds chapSet stages rawVolumes "chapter.raw.sqlite" []
    ⟨false, r.1, r.2.1, r.2.2, none⟩

/-! ## Token-bucket rate limiter (plugins/utils/rate_limiter.py) -/
/-- Mutable limiter state relevant to the bounds invariant; the
timestamp is replaced by the per-event elapsed time. -/
structure LimiterState where
  tokens : ℚ
  deriving Repr, DecidableEq

/-- The two atomic (lock-protected) sections of wait(): the initial
refill-and-maybe-debit, with the elapsed time since the last refill,
and the unconditional clamped debit after the sleep. -/
inductive LimiterEvent where
  | acquire (elapsed : ℚ)
  | lateDebit
  deriving Repr, DecidableEq

def limiterStep (rate capacity : ℚ) (st : LimiterState)
    (ev : LimiterEvent) : LimiterState :=
  match ev with
  | .acquire elapsed =>
    let t := min capacity (st.tokens + elapsed * rate)
    if 1 ≤ t then ⟨max 0 (t - 1)⟩ else ⟨t⟩
  | .lateDebit => ⟨max 0 (st.tokens - 1)⟩

/-- A run of interleaved wait() sections, starting from the initial
bucket tokens = float(burst) = capacity. -/
def limiterRun (rate capacity : ℚ) (evs : List LimiterEvent) :
    LimiterState :=
  evs.foldl (limiterStep rate capacity) ⟨capacity⟩

/-- elapsed times come from a monotonic clock and are nonnegative. -/
def eventOk : LimiterEvent → Bool
  | .acquire e => decide (0 ≤ e)
  | .lateDebit => true

/-! ## Theorems -/

theorem getAssoc_filter_ne {α : Type} (l : List (String × α)) (k k' : String)
    (h : k' ≠ k) :
    getAssoc (l.filter (fun p => !(p.1 == k))) k' = getAssoc l k' := by
  induction l with
  | nil => rfl
  | cons a rest ih =>
    by_cases ha : a.1 = k
    · have hk : (a.1 == k) = true := by simp [ha]
      have hk' : (a.1 == k') = false := by simp [ha, Ne.symm h]
      simp [getAssoc, List.find?, hk, hk'] at ih ⊢
      exact ih
    · have hk : (a.1 == k) = false := by simp [ha]
      by_cases ha' : a.1 = k'
      · have hk' : (a.1 == k') = true := by simp [ha']
        simp [getAssoc, List.find?, hk, hk']
      · have hk' : (a.1 == k') = false := by simp [ha']
        simp [getAssoc, List.find?, hk, hk'] at ih ⊢
        exact ih

theorem getAssoc_setAssoc_self {α : Type} (l : List (String × α))
    (k : String) (v : α) : getAssoc (setAssoc l k v) k = some v := by
  simp [getAssoc, setAssoc, List.find?]

theorem getAssoc_setAssoc_ne {α : Type} (l : List (String × α))
    (k k' : String) (v : α) (h : k' ≠ k) :
    getAssoc (setAssoc l k v) k' = getAssoc l k' := by
  have hk : (k == k') = false := by simp [Ne.symm h]
  simp only [setAssoc, getAssoc, List.find?, hk]
  exact getAssoc_filter_ne l k k' h

theorem getAssoc_delAssoc_self {α : Type} (l : List (String × α))
    (k : String) : getAssoc (delAssoc l k) k = none := by
  induction l with
  | nil => rfl
  | cons a rest ih =>
    by_cases ha : a.1 = k
    · have hk : (a.1 == k) = true := by simp [ha]
      simp [delAssoc, getAssoc, List.find?, hk]
    · have hk : (a.1 == k) = false := by simp [ha]
      simp [delAssoc, getAssoc, List.find?, hk]

theorem getAssoc_delAssoc_ne {α : Type} (l : List (String × α))
    (k k' : String) (h : k' ≠ k) :
    getAssoc (delAssoc l k) k' = getAssoc l k' :=
  getAssoc_filter_ne l k k' h

theorem getAssoc_foldl_del {α : Type} (cs : List String)
    (l : List (String × α)) (cid : String) :
    getAssoc (cs.foldl delAssoc l) cid =
      if cid ∈ cs then none else getAssoc l cid := by
  induction cs generalizing l with
  | nil => simp
  | cons c rest ih =>
    by_cases hc : cid = c
    · subst hc
      by_cases hmem : cid ∈ rest
      · simp [List.foldl_cons, ih, hmem]
      · simp [List.foldl_cons, ih, hmem, getAssoc_delAssoc_self]
    · by_cases hmem : cid ∈ rest
      · simp [List.foldl_cons, ih, hmem, hc]
      · simp [List.foldl_cons, ih, hmem, hc,
          getAssoc_delAssoc_ne l c cid hc]

theorem getAssoc_foldl_set_untouched {α : Type} (f : Chapter → α)
    (chs : List Chapter) (l : List (String × α)) (cid : String)
    (h : ∀ ch ∈ chs, ch.id ≠ cid) :
    getAssoc (chs.foldl (fun acc ch => setAssoc acc ch.id (f ch)) l) cid =
      getAssoc l cid := by
  induction chs generalizing l with
  | nil => rfl
  | cons c rest ih =>
    have hc : c.id ≠ cid := h c (by simp)
    rw [List.foldl_cons, ih _ (fun ch hch => h ch (by simp [hch])),
      getAssoc_setAssoc_ne _ _ _ _ (Ne.symm hc)]

theorem applyOp_untouched (st : Storage) (op : StoreOp) (cid : String)
    (hi : opInserts op cid = false) (hd : opDeletes op cid = false) :
    getAssoc (applyOp st op).flags cid = getAssoc st.flags cid := by
  cases op with
  | upsertOne ch need =>
    have : ch.id ≠ cid := by
      intro h; simp [opInserts, h] at hi
    simp [applyOp, Storage.upsert_chapter,
      getAssoc_setAssoc_ne _ _ _ _ (Ne.symm this)]
  | upsertMany chs need =>
    by_cases hempty : chs.isEmpty
    · simp [applyOp, Storage.upsert_chapters, hempty]
    · have hall : ∀ ch ∈ chs, ch.id ≠ cid := by
        intro ch hch h
        have : chs.any (fun ch => ch.id == cid) = true :=
          List.any_eq_true.mpr ⟨ch, hch, by simp [h]⟩
        simp [opInserts, this] at hi
      simp [applyOp, Storage.upsert_chapters, hempty]
      exact getAssoc_foldl_set_untouched _ chs st.flags cid hall
  | deleteOne c =>
    have : cid ≠ c := by
      intro h; simp [opDeletes, h] at hd
    simp [applyOp, Storage.delete_chapter, getAssoc_delAssoc_ne _ _ _ this]
  | deleteMany cs =>
    have : cid ∉ cs := by
      intro h
      have : cs.any (fun c => c == cid) = true :=
        List.any_eq_true.mpr ⟨cid, h, by simp⟩
      simp [opDeletes, this] at hd
    simp [applyOp, Storage.delete_chapters, getAssoc_foldl_del, this]

theorem applyOp_deleted (st : Storage) (op : StoreOp) (cid : String)
    (hd : opDeletes op cid = true) :
    getAssoc (applyOp st op).flags cid = none := by
  cases op with
  | upsertOne ch need => simp [opDeletes] at hd
  | upsertMany chs need => simp [opDeletes] at hd
  | deleteOne c =>
    have : c = cid := by simpa [opDeletes] using hd
    subst this
    simp [applyOp, Storage.delete_chapter, getAssoc_delAssoc_self]
  | deleteMany cs =>
    have : cid ∈ cs := by simpa [opDeletes] using hd
    simp [applyOp, Storage.delete_chapters, getAssoc_foldl_del, this]

theorem flags_of_absent_trace (cid : String) (ops : List StoreOp) :
    ∀ st : Storage, absentByTrace cid ops.reverse = true →
      getAssoc (List.foldl applyOp st ops).flags cid = getAssoc st.flags cid ∨
      getAssoc (List.foldl applyOp st ops).flags cid = none := by
  induction ops using List.reverseRecOn with
  | nil => intro st _; left; rfl
  | append_singleton ops op ih =>
    intro st habs
    rw [List.reverse_append] at habs
    simp only [List.reverse_singleton, List.singleton_append] at habs
    rw [List.foldl_append, List.foldl_cons, List.foldl_nil]
    unfold absentByTrace at habs
    by_cases hi : opInserts op cid
    · simp [hi] at habs
    · by_cases hd : opDeletes op cid
      · right
        exact applyOp_deleted _ op cid hd
      · simp only [hi, if_false, hd] at habs
        rcases ih st habs with h | h
        · left
          rw [applyOp_untouched _ op cid (by simpa using hi) (by simpa using hd)]
          exact h
        · right
          rw [applyOp_untouched _ op cid (by simpa using hi) (by simpa using hd)]
          exact h

/-- Claim C8: for every id never inserted into a ChapterStorage, or
deleted and not re-inserted, need_refetch answers true and the
existence query answers false. -/
theorem storage_unknown_id_conservative (ops : List StoreOp) (cid : String)
    (h : absentByTrace cid ops.reverse = true) :
    (runOps ops).need_refetch cid = true ∧
      (runOps ops).existsId cid = false := by
  have hflags := flags_of_absent_trace cid ops Storage.empty h
  have hempty : getAssoc (Storage.empty).flags cid = none := rfl
  have : getAssoc (runOps ops).flags cid = none := by
    rcases hflags with h' | h'
    · rw [runOps, h', hempty]
    · exact h'
  constructor
  · simp [Storage.need_refetch, this]
  · simp [Storage.existsId, this]

/-- Witness for C8 on a concrete trace: c1 is inserted twice, then
deleted once by a batch delete, and never re-inserted. -/
theorem storage_unknown_id_conservative_witness :
    (runOps [.upsertOne ⟨"c1", "t", "x", none⟩ true,
             .upsertMany [⟨"c1", "t", "y", none⟩, ⟨"c2", "u", "z", none⟩] false,
             .deleteMany ["c1", "c9"]]).need_refetch "c1" = true ∧
    (runOps [.upsertOne ⟨"c1", "t", "x", none⟩ true,
             .upsertMany [⟨"c1", "t", "y", none⟩, ⟨"c2", "u", "z", none⟩] false,
             .deleteMany ["c1", "c9"]]).existsId "c1" = false :=
  storage_unknown_id_conservative _ "c1" (by decide)

theorem getAssoc_foldl_set_touched {α : Type} (f : Chapter → α)
    (chs : List Chapter) (l : List (String × α)) (cid : String)
    (h : ∃ ch ∈ chs, ch.id = cid) :
    ∃ ch ∈ chs, ch.id = cid ∧
      getAssoc (chs.foldl (fun acc ch => setAssoc acc ch.id (f ch)) l) cid =
        some (f ch) := by
  induction chs using List.reverseRecOn generalizing l with
  | nil => simp at h
  | append_singleton chs c ih =>
    rw [List.foldl_append, List.foldl_cons, List.foldl_nil]
    by_cases hc : c.id = cid
    · exact ⟨c, by simp, hc, by rw [← hc]; exact getAssoc_setAssoc_self _ _ _⟩
    · have h' : ∃ ch ∈ chs, ch.id = cid := by
        rcases h with ⟨ch, hch, hid⟩
        rcases List.mem_append.mp hch with hch | hch
        · exact ⟨ch, hch, hid⟩
        · simp at hch
          exact absurd hid (hch ▸ hc)
      rcases ih l h' with ⟨ch, hch, hid, hlook⟩
      refine ⟨ch, List.mem_append.mpr (Or.inl hch), hid, ?_⟩
      rw [getAssoc_setAssoc_ne _ _ _ _ (fun hh => hc hh.symm)]
      exact hlook

/-- Claim C6 fails on upsert_chapters: with an empty store, a one-element
batch and a durable write that raises, the in-memory index ends up
reporting the chapter present and clean while no row was stored; the
exception is propagated to (and swallowed by) flush_batch, so the caller
observes the disagreeing state. -/
theorem upsert_chapters_failed_write_desyncs :
    ¬ indexRowAgree
        ((Storage.empty.upsert_chapters [⟨"x", "t", "c", none⟩] false false).1)
        "x" ∧
    (Storage.empty.upsert_chapters [⟨"x", "t", "c", none⟩] false false).2
      = false := by
  constructor
  · unfold indexRowAgree
    decide
  · decide

/-- Claim C6 amended: upsert_chapter keeps index and rows in agreement
on every id even when the durable write raises (the flag is assigned
only after the commit returns); upsert_chapters keeps them in agreement
whenever the durable write succeeds. -/
theorem upsert_index_row_consistency (st : Storage) (ch : Chapter)
    (chs : List Chapter) (need1 writeOk1 need2 writeOk2 : Bool) (cid : String)
    (h : indexRowAgree st cid) :
    indexRowAgree (st.upsert_chapter ch need1 writeOk1).1 cid ∧
    (writeOk2 = true →
      indexRowAgree (st.upsert_chapters chs need2 writeOk2).1 cid) := by
  constructor
  · cases writeOk1 with
    | false => simpa [Storage.upsert_chapter] using h
    | true =>
      by_cases hc : cid = ch.id
      · subst hc
        simp [indexRowAgree, Storage.upsert_chapter, getAssoc_setAssoc_self]
      · simpa [indexRowAgree, Storage.upsert_chapter,
          getAssoc_setAssoc_ne _ _ _ _ hc] using h
  · intro hw
    subst hw
    by_cases hempty : chs.isEmpty
    · simpa [Storage.upsert_chapters, hempty] using h
    · by_cases htouch : ∃ c ∈ chs, c.id = cid
      · rcases getAssoc_foldl_set_touched (fun _ => need2) chs st.flags cid
          htouch with ⟨c1, _, _, hflags⟩
        rcases getAssoc_foldl_set_touched (fun c => (c, need2)) chs st.rows cid
          htouch with ⟨c2, _, _, hrows⟩
        simp [indexRowAgree, Storage.upsert_chapters, hempty, hflags, hrows]
      · push_neg at htouch
        have hflags := getAssoc_foldl_set_untouched (fun _ => need2) chs
          st.flags cid htouch
        have hrows := getAssoc_foldl_set_untouched (fun c => (c, need2)) chs
          st.rows cid htouch
        simpa [indexRowAgree, Storage.upsert_chapters, hempty, hflags,
          hrows] using h

/-- Witness for the amended C6 at a concrete store, chapter and batch;
the single upsert is given a failing durable write. -/
theorem upsert_index_row_consistency_witness :
    indexRowAgree
      ((Storage.empty.upsert_chapter ⟨"a", "t", "c", none⟩ true false).1) "a" ∧
    (true = true →
      indexRowAgree
        ((Storage.empty.upsert_chapters
          [⟨"a", "t", "c", none⟩, ⟨"b", "u", "d", none⟩] false true).1) "a") :=
  upsert_index_row_consistency Storage.empty ⟨"a", "t", "c", none⟩
    [⟨"a", "t", "c", none⟩, ⟨"b", "u", "d", none⟩] true false false true "a"
    (by unfold indexRowAgree; decide)

theorem extractGo_sublist (startId endId : Option String)
    (ignore : List String) (fetchInacc : Bool) :
    ∀ (chs : List ChapMeta) (seenStart : Bool),
      (extractGo startId endId ignore fetchInacc chs seenStart).Sublist
        (chs.filterMap (fun c => presentId c.chapterId)) := by
  intro chs
  induction chs with
  | nil => intro seenStart; simp [extractGo]
  | cons c rest ih =>
    intro seenStart
    cases hcid : presentId c.chapterId with
    | none => simpa [extractGo, hcid] using ih seenStart
    | some cid =>
      simp only [extractGo, hcid, List.filterMap_cons]
      by_cases hskip : seenStart = false ∧ startId ≠ some cid
      · rw [if_pos hskip]
        exact (ih false).cons cid
      · rw [if_neg hskip]
        by_cases hend : endId = some cid
        · rw [if_pos hend]
          by_cases hkeep : cid ∉ ignore ∧
              (c.accessible = true ∨ fetchInacc = true)
          · rw [if_pos hkeep]
            exact (List.nil_sublist _).cons₂ cid
          · rw [if_neg hkeep]
            exact List.nil_sublist _
        · rw [if_neg hend]
          by_cases hkeep : cid ∉ ignore ∧
              (c.accessible = true ∨ fetchInacc = true)
          · rw [if_pos hkeep, List.singleton_append]
            exact (ih true).cons₂ cid
          · rw [if_neg hkeep, List.nil_append]
            exact (ih true).cons cid

theorem extractGo_seen_window (startId endId : Option String)
    (ignore : List String) (fetchInacc : Bool) :
    ∀ chs : List ChapMeta,
      extractGo startId endId ignore fetchInacc chs true =
        (specTakeThrough endId chs).filterMap
          (specKeep ignore fetchInacc) := by
  intro chs
  induction chs with
  | nil => cases endId <;> rfl
  | cons c rest ih =>
    cases hcid : presentId c.chapterId with
    | none =>
      have hkeep : specKeep ignore fetchInacc c = none := by
        simp [specKeep, hcid]
      cases endId with
      | none =>
        simp [extractGo, hcid, specTakeThrough,
          List.filterMap_cons_none hkeep, ih]
      | some e =>
        simp [extractGo, hcid, specTakeThrough,
          List.filterMap_cons_none hkeep, ih]
    | some cid =>
      by_cases hkeep : cid ∉ ignore ∧
          (c.accessible = true ∨ fetchInacc = true)
      · have hk : specKeep ignore fetchInacc c = some cid := by
          simp [specKeep, hcid, hkeep]
        cases endId with
        | none =>
          simp [extractGo, hcid, specTakeThrough, hkeep,
            List.filterMap_cons_some hk, ih]
        | some e =>
          by_cases hend : e = cid
          · subst hend
            simp [extractGo, hcid, specTakeThrough, hkeep,
              List.filterMap_cons_some hk]
          · simp [extractGo, hcid, specTakeThrough, hkeep, hend,
              Ne.symm hend, List.filterMap_cons_some hk, ih]
      · have hk : specKeep ignore fetchInacc c = none := by
          simp [specKeep, hcid, hkeep]
        cases endId with
        | none =>
          simp [extractGo, hcid, specTakeThrough, hkeep,
            List.filterMap_cons_none hk, ih]
        | some e =>
          by_cases hend : e = cid
          · subst hend
            simp [extractGo, hcid, specTakeThrough, hkeep,
              List.filterMap_cons_none hk]
          · simp [extractGo, hcid, specTakeThrough, hkeep, hend,
              Ne.symm hend, List.filterMap_cons_none hk, ih]

theorem extractGo_start_hit (startId endId : Option String)
    (ignore : List String) (fetchInacc : Bool) (c : ChapMeta)
    (rest : List ChapMeta) (cid : String)
    (hcid : presentId c.chapterId = some cid) (hs : startId = some cid) :
    extractGo startId endId ignore fetchInacc (c :: rest) false =
      extractGo startId endId ignore fetchInacc (c :: rest) true := by
  simp [extractGo, hcid, hs]

theorem extractGo_unseen_window (s0 : String) (endId : Option String)
    (ignore : List String) (fetchInacc : Bool) :
    ∀ chs : List ChapMeta,
      extractGo (some s0) endId ignore fetchInacc chs false =
        (specTakeThrough endId (specDropUntilStart (some s0)
          chs)).filterMap (specKeep ignore fetchInacc) := by
  intro chs
  induction chs with
  | nil =>
    cases endId <;> simp [extractGo, specDropUntilStart, specTakeThrough]
  | cons c rest ih =>
    cases hcid : presentId c.chapterId with
    | none =>
      have hdrop : specDropUntilStart (some s0) (c :: rest) =
          specDropUntilStart (some s0) rest := by
        simp [specDropUntilStart, hcid]
      have hstep : extractGo (some s0) endId ignore fetchInacc (c :: rest)
          false = extractGo (some s0) endId ignore fetchInacc rest
          false := by
        simp [extractGo, hcid]
      rw [hstep, hdrop]
      exact ih
    | some cid =>
      by_cases hs : cid = s0
      · subst hs
        have hdrop : specDropUntilStart (some cid) (c :: rest) =
            c :: rest := by
          simp [specDropUntilStart, hcid]
        rw [hdrop, extractGo_start_hit (some cid) endId ignore fetchInacc
          c rest cid hcid rfl]
        exact extractGo_seen_window (some cid) endId ignore fetchInacc
          (c :: rest)
      · have hne : ¬ s0 = cid := fun hh => hs hh.symm
        have hdrop : specDropUntilStart (some s0) (c :: rest) =
            specDropUntilStart (some s0) rest := by
          simp [specDropUntilStart, hcid, hs]
        have hstep : extractGo (some s0) endId ignore fetchInacc
            (c :: rest) false =
            extractGo (some s0) endId ignore fetchInacc rest false := by
          simp [extractGo, hcid, hne]
        rw [hstep, hdrop]
        exact ih

theorem extract_eq_spec_window (vols : List Volume)
    (startId endId : Option String) (ignore : List String)
    (fetchInacc : Bool) :
    extract_chapter_ids vols startId endId ignore fetchInacc =
      (specTakeThrough endId (specDropUntilStart startId
        ((vols.map Volume.chapters).flatten))).filterMap
        (specKeep ignore fetchInacc) := by
  cases startId with
  | none =>
    have hd : specDropUntilStart none
        ((vols.map Volume.chapters).flatten) =
        (vols.map Volume.chapters).flatten := by
      simp [specDropUntilStart]
    unfold extract_chapter_ids
    rw [hd]
    exact extractGo_seen_window none endId ignore fetchInacc
      ((vols.map Volume.chapters).flatten)
  | some s0 =>
    exact extractGo_unseen_window s0 endId ignore fetchInacc
      ((vols.map Volume.chapters).flatten)

/-- Claim C4: the concrete plan for volumes [[a,b,c],[d,e]] with
start_id = b, end_id = d, ignore = {c} is exactly [b, d]; for every
input the plan equals, occurrence for occurrence, the declared chapter
sequence restricted to the [start_id, end_id] window with the ignore
and accessibility filter applied — the plan never reorders and never
drops or deduplicates anything beyond that filter (a duplicated
declared id yields duplicated plan entries, as the [a, a] conjunct
shows concretely) — and in particular the plan is a subsequence of the
declared chapter order. -/
theorem extract_plan_correct :
    extract_chapter_ids
      [⟨[⟨some "a", true⟩, ⟨some "b", true⟩, ⟨some "c", true⟩]⟩,
       ⟨[⟨some "d", true⟩, ⟨some "e", true⟩]⟩]
      (some "b") (some "d") ["c"] false = ["b", "d"] ∧
    extract_chapter_ids [⟨[⟨some "a", true⟩, ⟨some "a", true⟩]⟩]
      none none [] false = ["a", "a"] ∧
    (∀ (vols : List Volume) (startId endId : Option String)
      (ignore : List String) (fetchInacc : Bool),
      extract_chapter_ids vols startId endId ignore fetchInacc =
        (specTakeThrough endId (specDropUntilStart startId
          ((vols.map Volume.chapters).flatten))).filterMap
          (specKeep ignore fetchInacc)) ∧
    (∀ (vols : List Volume) (startId endId : Option String)
      (ignore : List String) (fetchInacc : Bool),
      (extract_chapter_ids vols startId endId ignore fetchInacc).Sublist
        (declaredOrder vols)) := by
  refine ⟨by decide, by decide, ?_, ?_⟩
  · intro vols startId endId ignore fetchInacc
    exact extract_eq_spec_window vols startId endId ignore fetchInacc
  · intro vols startId endId ignore fetchInacc
    exact extractGo_sublist startId endId ignore fetchInacc _ _

theorem getChapterGo_calls_le (fetch : ℕ → FetchOutcome) (retryTimes : ℕ)
    (backoff : ℚ) : ∀ (n attempt : ℕ), retryTimes - attempt = n →
    (getChapterGo fetch retryTimes backoff attempt).calls ≤ n + 1 := by
  intro n
  induction n with
  | zero =>
    intro attempt hn
    have hlt : ¬ attempt < retryTimes := by omega
    unfold getChapterGo
    cases fetch attempt <;> simp [hlt]
  | succ n ih =>
    intro attempt hn
    unfold getChapterGo
    cases fetch attempt with
    | success c => simp
    | emptyContent => simp
    | restrictedContent => simp
    | otherError =>
      by_cases hlt : attempt < retryTimes
      · have := ih (attempt + 1) (by omega)
        simp only [hlt, dif_pos]
        simpa using this
      · simp [hlt]

theorem getChapterGo_classified_stops (fetch : ℕ → FetchOutcome)
    (retryTimes : ℕ) (backoff : ℚ) :
    ∀ (j attempt : ℕ), attempt + j ≤ retryTimes →
      (∀ i, attempt ≤ i → i < attempt + j → fetch i = .otherError) →
      (fetch (attempt + j) = .emptyContent ∨
        fetch (attempt + j) = .restrictedContent) →
      (getChapterGo fetch retryTimes backoff attempt).result = none ∧
        (getChapterGo fetch retryTimes backoff attempt).calls = j + 1 := by
  intro j
  induction j with
  | zero =>
    intro attempt _ _ hcls
    rw [Nat.add_zero] at hcls
    unfold getChapterGo
    rcases hcls with h | h <;> simp [h]
  | succ j ih =>
    intro attempt hle hother hcls
    have ha : fetch attempt = .otherError :=
      hother attempt le_rfl (by omega)
    have hlt : attempt < retryTimes := by omega
    have hrec := ih (attempt + 1) (by omega)
      (fun i h1 h2 => hother i (by omega) (by omega))
      (by rw [show attempt + 1 + j = attempt + (j + 1) by omega]; exact hcls)
    unfold getChapterGo
    rw [ha, dif_pos hlt]
    simp [hrec.1, hrec.2]

theorem getChapterGo_all_transient (fetch : ℕ → FetchOutcome)
    (retryTimes : ℕ) (backoff : ℚ)
    (h : ∀ i, fetch i = .otherError) :
    ∀ (n attempt : ℕ), retryTimes - attempt = n → attempt ≤ retryTimes →
      getChapterGo fetch retryTimes backoff attempt =
        ⟨none, retryTimes + 1 - attempt,
          (List.range (retryTimes - attempt)).map
            (fun i => backoff * 2 ^ (attempt + i))⟩ := by
  intro n
  induction n with
  | zero =>
    intro attempt hn ha
    have hlt : ¬ attempt < retryTimes := by omega
    unfold getChapterGo
    rw [h attempt, dif_neg hlt, hn]
    simp [FetchTrace.mk.injEq]
    omega
  | succ n ih =>
    intro attempt hn ha
    have hlt : attempt < retryTimes := by omega
    have hrec := ih (attempt + 1) (by omega) (by omega)
    unfold getChapterGo
    rw [h attempt, dif_pos hlt]
    simp only [hrec, FetchTrace.mk.injEq]
    refine ⟨trivial, by omega, ?_⟩
    have hr : retryTimes - attempt = (retryTimes - (attempt + 1)) + 1 := by
      omega
    rw [hr, List.range_succ_eq_map, List.map_cons, List.map_map]
    refine List.cons_eq_cons.mpr ⟨by simp, ?_⟩
    apply List.map_congr_left
    intro i _
    simp only [Function.comp_apply, Nat.succ_eq_add_one]
    rw [show attempt + 1 + i = attempt + (i + 1) from by omega]

/-! ## Invariants of the storage worker and producers -/
theorem keys_setAssoc {α : Type} (l : List (String × α)) (k : String)
    (v : α) :
    (((setAssoc l k v).map Prod.fst).toFinset : Finset String) =
      insert k ((l.map Prod.fst).toFinset) := by
  ext x
  by_cases hx : x = k
  · simp [setAssoc, hx]
  · simp only [setAssoc, List.map_cons, List.mem_toFinset, List.mem_cons,
      List.mem_map, List.mem_filter, Finset.mem_insert, hx, false_or]
    constructor
    · rintro ⟨p, ⟨hp, _⟩, hpx⟩
      exact ⟨p, hp, hpx⟩
    · rintro ⟨p, hp, hpx⟩
      refine ⟨p, ⟨hp, ?_⟩, hpx⟩
      simp [hpx, hx]

theorem getAssoc_mem_keys {α : Type} (l : List (String × α)) (k : String)
    (h : (getAssoc l k).isSome = true) : k ∈ l.map Prod.fst := by
  induction l with
  | nil => simp [getAssoc] at h
  | cons a rest ih =>
    by_cases ha : a.1 = k
    · simp [ha]
    · have hbeq : (a.1 == k) = false := by simp [ha]
      rw [getAssoc] at h
      rw [List.find?_cons, hbeq] at h
      exact List.mem_cons_of_mem _ (ih h)

theorem keys_foldl_set {α : Type} (f : Chapter → α) (chs : List Chapter) :
    ∀ l : List (String × α),
    (((chs.foldl (fun acc ch => setAssoc acc ch.id (f ch)) l).map
        Prod.fst).toFinset : Finset String) =
      (l.map Prod.fst).toFinset ∪ (chs.map Chapter.id).toFinset := by
  induction chs with
  | nil => intro l; simp
  | cons c rest ih =>
    intro l
    rw [List.foldl_cons, ih, keys_setAssoc]
    ext x
    simp

theorem existing_ids_upsert_chapters (st : Storage) (batch : List Chapter)
    (need : Bool) :
    (st.upsert_chapters batch need true).1.existing_ids =
      st.existing_ids ∪ (batch.map Chapter.id).toFinset := by
  by_cases hempty : batch.isEmpty
  · have hb : batch = [] := by simpa using hempty
    simp [Storage.upsert_chapters, hempty, hb]
  · simp [Storage.upsert_chapters, hempty, Storage.existing_ids,
      keys_foldl_set]

theorem bump_progress (ws : WorkerState) (n : ℕ) :
    progressConsistent (bump ws n) := by
  left
  simp [bump, List.getLast?_concat]

theorem flush_batch_false_empty (ws : WorkerState) (h : ws.batchF = []) :
    flush_batch ws false = ws := by
  simp [flush_batch, h]

theorem flush_batch_true_empty (ws : WorkerState) (h : ws.batchT = []) :
    flush_batch ws true = ws := by
  simp [flush_batch, h]

theorem flush_batch_false_eq (ws : WorkerState) (h : ¬ ws.batchF = []) :
    flush_batch ws false =
      ⟨(ws.store.upsert_chapters ws.batchF false true).1, [], ws.batchT,
        ws.done + ws.batchF.length,
        ws.events ++ [ws.done + ws.batchF.length]⟩ := by
  simp [flush_batch, h, bump]

theorem flush_batch_true_eq (ws : WorkerState) (h : ¬ ws.batchT = []) :
    flush_batch ws true =
      ⟨(ws.store.upsert_chapters ws.batchT true true).1, ws.batchF, [],
        ws.done + ws.batchT.length,
        ws.events ++ [ws.done + ws.batchT.length]⟩ := by
  simp [flush_batch, h, bump]

theorem flush_batch_spec (ws : WorkerState) (need : Bool) :
    wIds (flush_batch ws need) = wIds ws ∧
    wMeasure (flush_batch ws need) = wMeasure ws ∧
    (progressConsistent ws → progressConsistent (flush_batch ws need)) := by
  cases need with
  | false =>
    by_cases hempty : ws.batchF = []
    · rw [flush_batch_false_empty ws hempty]
      exact ⟨rfl, rfl, fun h => h⟩
    · have hids := existing_ids_upsert_chapters ws.store ws.batchF false
      rw [flush_batch_false_eq ws hempty]
      refine ⟨?_, ?_, fun _ => ?_⟩
      · simp [wIds, hids]
      · simp [wMeasure]
      · left
        simp [List.getLast?_concat]
  | true =>
    by_cases hempty : ws.batchT = []
    · rw [flush_batch_true_empty ws hempty]
      exact ⟨rfl, rfl, fun h => h⟩
    · have hids := existing_ids_upsert_chapters ws.store ws.batchT true
      rw [flush_batch_true_eq ws hempty]
      refine ⟨?_, ?_, fun _ => ?_⟩
      · simp only [wIds, hids, List.map_nil, List.toFinset_nil,
          Finset.union_empty]
        exact Finset.union_right_comm _ _ _
      · simp only [wMeasure]
        simp
        omega
      · left
        simp [List.getLast?_concat]

theorem flush_batch_false_batchF (ws : WorkerState) :
    (flush_batch ws false).batchF = [] := by
  by_cases hempty : ws.batchF = []
  · rw [flush_batch_false_empty ws hempty]
    exact hempty
  · rw [flush_batch_false_eq ws hempty]

theorem flush_batch_true_batches (ws : WorkerState) :
    (flush_batch ws true).batchT = [] ∧
    (flush_batch ws true).batchF = ws.batchF := by
  by_cases hempty : ws.batchT = []
  · rw [flush_batch_true_empty ws hempty]
    exact ⟨hempty, rfl⟩
  · rw [flush_batch_true_eq ws hempty]
    exact ⟨rfl, rfl⟩

theorem flush_all_spec (ws : WorkerState) :
    (flush_all ws).batchF = [] ∧ (flush_all ws).batchT = [] ∧
    wIds (flush_all ws) = wIds ws ∧
    wMeasure (flush_all ws) = wMeasure ws ∧
    (progressConsistent ws → progressConsistent (flush_all ws)) := by
  have h1 := flush_batch_spec ws false
  have h2 := flush_batch_spec (flush_batch ws false) true
  have hT := flush_batch_true_batches (flush_batch ws false)
  refine ⟨?_, ?_, ?_, ?_, ?_⟩
  · rw [flush_all, hT.2, flush_batch_false_batchF]
  · rw [flush_all, hT.1]
  · rw [flush_all, h2.1, h1.1]
  · rw [flush_all, h2.2.1, h1.2.1]
  · intro h
    exact h2.2.2 (h1.2.2 h)

theorem batch_append_ids (l : List Chapter) (item : Chapter) :
    (((l ++ [item]).map Chapter.id).toFinset : Finset String) =
      insert item.id (l.map Chapter.id).toFinset := by
  ext x
  simp [or_comm]

theorem wIds_append_batchF (ws : WorkerState) (item : Chapter) :
    wIds { ws with batchF := ws.batchF ++ [item] } =
      insert item.id (wIds ws) := by
  simp only [wIds, batch_append_ids]
  rw [Finset.union_insert, Finset.insert_union]

theorem wIds_append_batchT (ws : WorkerState) (item : Chapter) :
    wIds { ws with batchT := ws.batchT ++ [item] } =
      insert item.id (wIds ws) := by
  simp only [wIds, batch_append_ids]
  rw [Finset.union_insert]

theorem worker_step_spec (check : Chapter → Bool) (bs : ℕ)
    (ws : WorkerState) (item : Chapter) :
    wIds (worker_step check bs ws item) = insert item.id (wIds ws) ∧
    wMeasure (worker_step check bs ws item) = wMeasure ws + 1 ∧
    (progressConsistent ws →
      progressConsistent (worker_step check bs ws item)) := by
  cases hc : check item with
  | false =>
    have h1 := wIds_append_batchF ws item
    have hsp := flush_batch_spec { ws with batchF := ws.batchF ++ [item] }
      false
    unfold worker_step
    rw [hc]
    simp only [Bool.false_eq_true, if_false]
    by_cases hflush : bs ≤ (ws.batchF ++ [item]).length
    · rw [if_pos hflush]
      refine ⟨by rw [hsp.1, h1], by rw [hsp.2.1]; simp [wMeasure]; omega,
        fun h => hsp.2.2 ?_⟩
      rcases h with h | h
      · exact Or.inl h
      · exact Or.inr h
    · rw [if_neg hflush]
      refine ⟨h1, by simp [wMeasure]; omega, fun h => ?_⟩
      rcases h with h | h
      · exact Or.inl h
      · exact Or.inr h
  | true =>
    have h1 := wIds_append_batchT ws item
    have hsp := flush_batch_spec { ws with batchT := ws.batchT ++ [item] }
      true
    unfold worker_step
    rw [hc]
    simp only [if_true]
    by_cases hflush : bs ≤ (ws.batchT ++ [item]).length
    · rw [if_pos hflush]
      refine ⟨by rw [hsp.1, h1], by rw [hsp.2.1]; simp [wMeasure]; omega,
        fun h => hsp.2.2 ?_⟩
      rcases h with h | h
      · exact Or.inl h
      · exact Or.inr h
    · rw [if_neg hflush]
      refine ⟨h1, by simp [wMeasure]; omega, fun h => ?_⟩
      rcases h with h | h
      · exact Or.inl h
      · exact Or.inr h

theorem worker_foldl_spec (check : Chapter → Bool) (bs : ℕ)
    (items : List Chapter) :
    ∀ ws : WorkerState,
      wIds (items.foldl (worker_step check bs) ws) =
        wIds ws ∪ (items.map Chapter.id).toFinset ∧
      wMeasure (items.foldl (worker_step check bs) ws) =
        wMeasure ws + items.length ∧
      (progressConsistent ws →
        progressConsistent (items.foldl (worker_step check bs) ws)) := by
  induction items with
  | nil => intro ws; simp
  | cons item rest ih =>
    intro ws
    rw [List.foldl_cons]
    have h1 := worker_step_spec check bs ws item
    have h2 := ih (worker_step check bs ws item)
    refine ⟨?_, ?_, fun h => h2.2.2 (h1.2.2 h)⟩
    · rw [h2.1, h1.1]
      ext x
      simp [or_comm, or_assoc, or_left_comm]
    · rw [h2.2.1, h1.2.1]
      simp
      omega

theorem storage_worker_spec (check : Chapter → Bool) (bs : ℕ)
    (items : List Chapter) (ws : WorkerState) :
    (storage_worker check bs items ws).batchF = [] ∧
    (storage_worker check bs items ws).batchT = [] ∧
    (storage_worker check bs items ws).store.existing_ids =
      wIds ws ∪ (items.map Chapter.id).toFinset ∧
    (storage_worker check bs items ws).done = wMeasure ws + items.length ∧
    (progressConsistent ws →
      progressConsistent (storage_worker check bs items ws)) := by
  have hfold := worker_foldl_spec check bs items ws
  have hfa := flush_all_spec (items.foldl (worker_step check bs) ws)
  unfold storage_worker
  refine ⟨hfa.1, hfa.2.1, ?_, ?_, fun h => hfa.2.2.2.2 (hfold.2.2 h)⟩
  · have h1 : wIds (flush_all (items.foldl (worker_step check bs) ws)) =
        wIds ws ∪ (items.map Chapter.id).toFinset := by
      rw [hfa.2.2.1, hfold.1]
    rw [← h1]
    unfold wIds
    rw [hfa.1, hfa.2.1]
    simp
  · have h1 : wMeasure (flush_all (items.foldl (worker_step check bs) ws)) =
        wMeasure ws + items.length := by
      rw [hfa.2.2.2.1, hfold.2.1]
    rw [← h1]
    unfold wMeasure
    rw [hfa.1, hfa.2.1]
    simp

theorem dlProduce_spec (env : DLEnv) (store : Storage) :
    ∀ (plan : List String) (ws : WorkerState),
      (∀ cid ∈ plan, (env.fetch cid).map Chapter.id = some cid) →
      (dlProduce env store plan ws).1.store = ws.store ∧
      (dlProduce env store plan ws).1.batchF = ws.batchF ∧
      (dlProduce env store plan ws).1.batchT = ws.batchT ∧
      (dlProduce env store plan ws).1.done +
          (dlProduce env store plan ws).2.length =
        ws.done + plan.length ∧
      (progressConsistent ws →
        progressConsistent (dlProduce env store plan ws).1) ∧
      ((dlProduce env store plan ws).2.map Chapter.id).toFinset ∪
          store.existing_ids =
        plan.toFinset ∪ store.existing_ids := by
  intro plan
  induction plan with
  | nil => intro ws _; simp [dlProduce]
  | cons cid rest ih =>
    intro ws hf
    have hcid := hf cid (by simp)
    have hrest : ∀ c ∈ rest, (env.fetch c).map Chapter.id = some c :=
      fun c hc => hf c (by simp [hc])
    unfold dlProduce
    by_cases hskip : env.cacheChapter = true ∧ store.need_refetch cid = false
    · rw [if_pos hskip]
      have hmem : cid ∈ store.existing_ids := by
        apply List.mem_toFinset.mpr
        apply getAssoc_mem_keys
        rcases hlook : getAssoc store.flags cid with _ | b
        · exfalso
          have : store.need_refetch cid = true := by
            simp [Storage.need_refetch, hlook]
          rw [this] at hskip
          exact absurd hskip.2 (by simp)
        · simp
      have hih := ih (bump ws 1) hrest
      refine ⟨hih.1, hih.2.1, hih.2.2.1, ?_, fun _ => hih.2.2.2.2.1
        (bump_progress ws 1), ?_⟩
      · have hlen := hih.2.2.2.1
        have hb : (bump ws 1).done = ws.done + 1 := rfl
        simp only [List.length_cons]
        omega
      · rw [hih.2.2.2.2.2]
        simp only [List.toFinset_cons]
        rw [Finset.insert_union]
        exact (Finset.insert_eq_self.mpr
          (Finset.mem_union_right _ hmem)).symm
    · rw [if_neg hskip]
      rcases hfetch : env.fetch cid with _ | ch
      · rw [hfetch] at hcid
        simp at hcid
      · rw [hfetch] at hcid
        dsimp only
        simp at hcid
        have hih := ih ws hrest
        refine ⟨hih.1, hih.2.1, hih.2.2.1, ?_, hih.2.2.2.2.1, ?_⟩
        · simp only [List.length_cons]
          have := hih.2.2.2.1
          omega
        · simp only [List.map_cons, List.toFinset_cons, hcid]
          rw [Finset.insert_union, Finset.insert_union,
            hih.2.2.2.2.2]

/-! ## Claim C5: consumer classification and batching -/
/-- Claim C5 (counterexample): the consumer does not classify a
dequeued chapter by storage.need_refetch.  With the default
_dl_check_refetch (constantly false) and an empty source store, the
store reports the chapter stale (need_refetch = true) at classification
time, yet the consumer appends it to the clean batch and the flushed
row carries need_refetch = false. -/
theorem consumer_classification_counterexample :
    Storage.empty.need_refetch "x" = true ∧
    (storage_worker (fun _ => false) 1 [⟨"x", "t", "c", none⟩]
      ⟨Storage.empty, [], [], 0, []⟩).store.need_refetch "x" = false := by
  constructor
  · decide
  · decide

theorem flush_batch_false_full (ws : WorkerState) :
    (flush_batch ws false).batchF = [] ∧
    (flush_batch ws false).batchT = ws.batchT ∧
    (flush_batch ws false).store =
      (ws.store.upsert_chapters ws.batchF false true).1 := by
  by_cases hF : ws.batchF = []
  · rw [flush_batch_false_empty ws hF]
    exact ⟨hF, rfl, by simp [Storage.upsert_chapters, hF]⟩
  · rw [flush_batch_false_eq ws hF]
    exact ⟨rfl, rfl, rfl⟩

theorem flush_batch_true_full (ws : WorkerState) :
    (flush_batch ws true).batchT = [] ∧
    (flush_batch ws true).batchF = ws.batchF ∧
    (flush_batch ws true).store =
      (ws.store.upsert_chapters ws.batchT true true).1 := by
  by_cases hT : ws.batchT = []
  · rw [flush_batch_true_empty ws hT]
    exact ⟨hT, rfl, by simp [Storage.upsert_chapters, hT]⟩
  · rw [flush_batch_true_eq ws hT]
    exact ⟨rfl, rfl, rfl⟩

/-- Claim C5 amended: each dequeued chapter is appended to the batch
selected by the client's _dl_check_refetch predicate on the chapter
(not by the store's need_refetch); the untouched batch is unchanged;
the selected batch either grows by the item while below the configured
batch size or, on reaching it, is durably upserted under its
classification and cleared; the stop signal flushes both remaining
batches, the clean one first. -/
theorem consumer_batching (check : Chapter → Bool) (bs : ℕ)
    (ws : WorkerState) (item : Chapter) :
    (check item = true → (worker_step check bs ws item).batchF = ws.batchF) ∧
    (check item = false → (worker_step check bs ws item).batchT = ws.batchT) ∧
    ((if check item then ws.batchT else ws.batchF).length + 1 < bs →
      (if check item then (worker_step check bs ws item).batchT
       else (worker_step check bs ws item).batchF) =
        (if check item then ws.batchT else ws.batchF) ++ [item] ∧
      (worker_step check bs ws item).store = ws.store) ∧
    (bs ≤ (if check item then ws.batchT else ws.batchF).length + 1 →
      (if check item then (worker_step check bs ws item).batchT
       else (worker_step check bs ws item).batchF) = [] ∧
      (worker_step check bs ws item).store =
        (ws.store.upsert_chapters
          ((if check item then ws.batchT else ws.batchF) ++ [item])
          (check item) true).1) ∧
    (flush_all ws).batchF = [] ∧ (flush_all ws).batchT = [] ∧
    (flush_all ws).store =
      (((ws.store.upsert_chapters ws.batchF false true).1).upsert_chapters
        ws.batchT true true).1 := by
  have hFf := flush_batch_false_full ws
  have hTf := flush_batch_true_full (flush_batch ws false)
  have hfa : (flush_all ws).batchF = [] ∧ (flush_all ws).batchT = [] ∧
      (flush_all ws).store =
        (((ws.store.upsert_chapters ws.batchF false true).1).upsert_chapters
          ws.batchT true true).1 := by
    refine ⟨?_, ?_, ?_⟩
    · rw [flush_all, hTf.2.1, hFf.1]
    · rw [flush_all, hTf.1]
    · rw [flush_all, hTf.2.2, hFf.2.1, hFf.2.2]
  cases hc : check item with
  | false =>
    unfold worker_step
    rw [hc]
    simp only [Bool.false_eq_true, if_false]
    have hlen : (ws.batchF ++ [item]).length = ws.batchF.length + 1 := by
      simp
    have hne : ¬ ws.batchF ++ [item] = [] := by simp
    refine ⟨fun h => absurd h (by simp), fun _ => ?_, fun h => ?_,
      fun h => ?_, hfa⟩
    · by_cases hflush : bs ≤ (ws.batchF ++ [item]).length
      · rw [if_pos hflush,
          flush_batch_false_eq { ws with batchF := ws.batchF ++ [item] }
            hne]
      · rw [if_neg hflush]
    · have hflush : ¬ bs ≤ (ws.batchF ++ [item]).length := by
        rw [hlen]; omega
      rw [if_neg hflush]
      exact ⟨rfl, rfl⟩
    · have hflush : bs ≤ (ws.batchF ++ [item]).length := by
        rw [hlen]; omega
      rw [if_pos hflush,
        flush_batch_false_eq { ws with batchF := ws.batchF ++ [item] }
          hne]
      exact ⟨rfl, rfl⟩
  | true =>
    unfold worker_step
    rw [hc]
    simp only [if_true]
    have hlen : (ws.batchT ++ [item]).length = ws.batchT.length + 1 := by
      simp
    have hne : ¬ ws.batchT ++ [item] = [] := by simp
    refine ⟨fun _ => ?_, fun h => absurd h (by simp), fun h => ?_,
      fun h => ?_, hfa⟩
    · by_cases hflush : bs ≤ (ws.batchT ++ [item]).length
      · rw [if_pos hflush,
          flush_batch_true_eq { ws with batchT := ws.batchT ++ [item] }
            hne]
      · rw [if_neg hflush]
    · have hflush : ¬ bs ≤ (ws.batchT ++ [item]).length := by
        rw [hlen]; omega
      rw [if_neg hflush]
      exact ⟨rfl, rfl⟩
    · have hflush : bs ≤ (ws.batchT ++ [item]).length := by
        rw [hlen]; omega
      rw [if_pos hflush,
        flush_batch_true_eq { ws with batchT := ws.batchT ++ [item] }
          hne]
      exact ⟨rfl, rfl⟩

/-- Witness for the amended C5: one concrete consumer step below the
batch threshold with the default classification. -/
theorem consumer_batching_witness :
    (worker_step (fun _ => false) 2 ⟨Storage.empty, [], [], 0, []⟩
      ⟨"x", "t", "c", none⟩).batchT = [] :=
  (consumer_batching (fun _ => false) 2 ⟨Storage.empty, [], [], 0, []⟩
    ⟨"x", "t", "c", none⟩).2.1 rfl

/-- Claim C1 fails as stated: starting from an empty store, the
id-repair pass fetches and persists chapter x (outside the plan) to
recover the second chapter's id y; the plan is exactly [y] and every
planned fetch succeeds, yet after download_book the raw store holds
{x, y}, not the plan set {y}. -/
theorem download_completeness_counterexample :
    extract_chapter_ids (fixVols cxEnv cxVols Storage.empty "").1
      (some "y") none [] false = ["y"] ∧
    (∀ cid ∈ extract_chapter_ids (fixVols cxEnv cxVols Storage.empty "").1
        (some "y") none [] false,
      (cxEnv.fetch cid).map Chapter.id = some cid) ∧
    (download_book cxEnv cxVols (some "y") none [] false
        Storage.empty).store.existing_ids ≠ ({"y"} : Finset String) := by
  refine ⟨by decide, by decide, by decide⟩

/-- Claim C1 amended: when every planned fetch succeeds (and parses to
a chapter with the planned id), the final raw store's existing_ids is
the post-id-repair store's ids — the initial contents plus any chapter
persisted by the repair pass — union the plan set; and whenever the
plan is nonempty the final on_progress call reports done == total with
total the plan length.  With an initially empty store and no repair
write this reduces to the claimed equality with the plan set. -/
theorem download_completeness (env : DLEnv) (vols : List Volume)
    (startId endId : Option String) (ignore : List String)
    (fetchInacc : Bool) (st0 : Storage)
    (hfetch : ∀ cid ∈ extract_chapter_ids (fixVols env vols st0 "").1
        startId endId ignore fetchInacc,
      (env.fetch cid).map Chapter.id = some cid) :
    (download_book env vols startId endId ignore fetchInacc
        st0).store.existing_ids =
      (fixVols env vols st0 "").2.1.existing_ids ∪
        (extract_chapter_ids (fixVols env vols st0 "").1 startId endId
          ignore fetchInacc).toFinset ∧
    (extract_chapter_ids (fixVols env vols st0 "").1 startId endId ignore
        fetchInacc ≠ [] →
      (download_book env vols startId endId ignore fetchInacc
          st0).events.getLast? =
        some (download_book env vols startId endId ignore fetchInacc
          st0).total ∧
      (download_book env vols startId endId ignore fetchInacc st0).total =
        (extract_chapter_ids (fixVols env vols st0 "").1 startId endId
          ignore fetchInacc).length) := by
  simp only [download_book]
  set S1 := (fixVols env vols st0 "").2.1 with hS1
  set P := extract_chapter_ids (fixVols env vols st0 "").1 startId endId
    ignore fetchInacc with hP
  by_cases hplan : P.isEmpty
  · rw [if_pos hplan]
    have hnil : P = [] := by simpa using hplan
    constructor
    · simp [hnil]
    · intro h
      exact absurd hnil h
  · rw [if_neg hplan]
    dsimp only
    have hprod := dlProduce_spec env S1 P ⟨S1, [], [], 0, []⟩ hfetch
    have hwork := storage_worker_spec env.checkRefetch env.batchSize
      (dlProduce env S1 P ⟨S1, [], [], 0, []⟩).2
      (dlProduce env S1 P ⟨S1, [], [], 0, []⟩).1
    have hws1 : wIds (dlProduce env S1 P ⟨S1, [], [], 0, []⟩).1 =
        S1.existing_ids := by
      unfold wIds
      rw [hprod.1, hprod.2.1, hprod.2.2.1]
      simp
    have hdone : (storage_worker env.checkRefetch env.batchSize
        (dlProduce env S1 P ⟨S1, [], [], 0, []⟩).2
        (dlProduce env S1 P ⟨S1, [], [], 0, []⟩).1).done = P.length := by
      rw [hwork.2.2.2.1]
      have h1 := hprod.2.2.2.1
      unfold wMeasure
      rw [hprod.2.1, hprod.2.2.1]
      simp at h1 ⊢
      omega
    constructor
    · rw [hwork.2.2.1, hws1]
      have hq := hprod.2.2.2.2.2
      rw [Finset.union_comm S1.existing_ids, hq, Finset.union_comm]
    · intro hPne
      have hpc0 : progressConsistent
          (⟨S1, [], [], 0, []⟩ : WorkerState) := Or.inr ⟨rfl, rfl⟩
      have hpc := hwork.2.2.2.2 (hprod.2.2.2.2.1 hpc0)
      rcases hpc with h | h
      · rw [hdone] at h
        exact ⟨h, rfl⟩
      · rcases h with ⟨hev, hd0⟩
        rw [hdone] at hd0
        exact absurd (List.length_eq_zero.mp hd0) hPne

/-- Witness for the amended C1 at a concrete one-chapter book. -/
theorem download_completeness_witness :
    (download_book wEnv wVols none none [] false
        Storage.empty).store.existing_ids =
      (fixVols wEnv wVols Storage.empty "").2.1.existing_ids ∪
        (extract_chapter_ids (fixVols wEnv wVols Storage.empty "").1 none
          none [] false).toFinset :=
  (download_completeness wEnv wVols none none [] false Storage.empty
    (by decide)).1

/-! ## Claim C3: per-chapter retry policy -/
theorem dlProduce_state (env : DLEnv) (store : Storage) :
    ∀ (plan : List String) (ws : WorkerState),
      (dlProduce env store plan ws).1.store = ws.store ∧
      (dlProduce env store plan ws).1.batchF = ws.batchF ∧
      (dlProduce env store plan ws).1.batchT = ws.batchT := by
  intro plan
  induction plan with
  | nil => intro ws; exact ⟨rfl, rfl, rfl⟩
  | cons cid rest ih =>
    intro ws
    unfold dlProduce
    by_cases hskip : env.cacheChapter = true ∧ store.need_refetch cid = false
    · rw [if_pos hskip]
      exact ih (bump ws 1)
    · rw [if_neg hskip]
      cases hf : env.fetch cid with
      | none => exact ih ws
      | some ch =>
        dsimp only
        exact ih ws

theorem dlProduce_queue_sources (env : DLEnv) (store : Storage) :
    ∀ (plan : List String) (ws : WorkerState) (ch : Chapter),
      ch ∈ (dlProduce env store plan ws).2 →
      ∃ cid ∈ plan, env.fetch cid = some ch := by
  intro plan
  induction plan with
  | nil =>
    intro ws ch h
    simp [dlProduce] at h
  | cons cid rest ih =>
    intro ws ch h
    unfold dlProduce at h
    by_cases hskip : env.cacheChapter = true ∧ store.need_refetch cid = false
    · rw [if_pos hskip] at h
      rcases ih _ ch h with ⟨c, hc, hfc⟩
      exact ⟨c, by simp [hc], hfc⟩
    · rw [if_neg hskip] at h
      cases hfetch : env.fetch cid with
      | none =>
        rw [hfetch] at h
        dsimp only at h
        rcases ih _ ch h with ⟨c, hc, hfc⟩
        exact ⟨c, by simp [hc], hfc⟩
      | some ch0 =>
        rw [hfetch] at h
        dsimp only at h
        rcases List.mem_cons.mp h with h | h
        · exact ⟨cid, by simp, by rw [hfetch, h]⟩
        · rcases ih _ ch h with ⟨c, hc, hfc⟩
          exact ⟨c, by simp [hc], hfc⟩

theorem dlProduce_mem_queue (env : DLEnv) (store : Storage) :
    ∀ (plan : List String) (ws : WorkerState) (cid : String) (ch : Chapter),
      cid ∈ plan →
      ¬ (env.cacheChapter = true ∧ store.need_refetch cid = false) →
      env.fetch cid = some ch →
      ch ∈ (dlProduce env store plan ws).2 := by
  intro plan
  induction plan with
  | nil =>
    intro ws cid ch h
    simp at h
  | cons c rest ih =>
    intro ws cid ch hmem hskip hfetch
    unfold dlProduce
    by_cases hskipc : env.cacheChapter = true ∧ store.need_refetch c = false
    · rw [if_pos hskipc]
      rcases List.mem_cons.mp hmem with rfl | hmem2
      · exact absurd hskipc hskip
      · exact ih _ cid ch hmem2 hskip hfetch
    · rw [if_neg hskipc]
      cases hf : env.fetch c with
      | none =>
        rcases List.mem_cons.mp hmem with rfl | hmem2
        · rw [hf] at hfetch
          exact absurd hfetch (by simp)
        · dsimp only
          exact ih _ cid ch hmem2 hskip hfetch
      | some ch0 =>
        dsimp only
        rcases List.mem_cons.mp hmem with rfl | hmem2
        · rw [hf] at hfetch
          injection hfetch with hh
          exact List.mem_cons.mpr (Or.inl hh.symm)
        · exact List.mem_cons.mpr (Or.inr (ih _ cid ch hmem2 hskip hfetch))

/-- Final raw-store id set of a nonempty-plan run, with no assumption
on fetch success: the post-repair store ids union the ids of the
chapters the producers enqueued. -/
theorem download_final_ids (env : DLEnv) (vols : List Volume)
    (startId endId : Option String) (ignore : List String)
    (fetchInacc : Bool) (st0 : Storage)
    (hplan : ¬ (extract_chapter_ids (fixVols env vols st0 "").1 startId
      endId ignore fetchInacc).isEmpty) :
    (download_book env vols startId endId ignore fetchInacc
        st0).store.existing_ids =
      (fixVols env vols st0 "").2.1.existing_ids ∪
        ((dlProduce env (fixVols env vols st0 "").2.1
            (extract_chapter_ids (fixVols env vols st0 "").1 startId endId
              ignore fetchInacc)
            ⟨(fixVols env vols st0 "").2.1, [], [], 0, []⟩).2.map
          Chapter.id).toFinset := by
  simp only [download_book]
  set S1 := (fixVols env vols st0 "").2.1 with hS1
  set P := extract_chapter_ids (fixVols env vols st0 "").1 startId endId
    ignore fetchInacc with hP
  rw [if_neg hplan]
  dsimp only
  have hstate := dlProduce_state env S1 P ⟨S1, [], [], 0, []⟩
  have hwork := storage_worker_spec env.checkRefetch env.batchSize
    (dlProduce env S1 P ⟨S1, [], [], 0, []⟩).2
    (dlProduce env S1 P ⟨S1, [], [], 0, []⟩).1
  rw [hwork.2.2.1]
  have hws1 : wIds (dlProduce env S1 P ⟨S1, [], [], 0, []⟩).1 =
      S1.existing_ids := by
    unfold wIds
    rw [hstate.1, hstate.2.1, hstate.2.2]
    simp
  rw [hws1]

/-- Claim C3: get_chapter stops immediately with None on a classified
empty-content or restricted-content error; otherwise it retries with
backoff_factor * 2 ^ attempt delays, invoking the fetch at most
retry_times + 1 times; a chapter whose fetch always fails transiently
yields None after exactly retry_times + 1 calls with the full backoff
schedule, and in a download run such a chapter is simply absent from
the raw store while every other planned chapter is still downloaded. -/
theorem chapter_retry_policy (fetch : ℕ → FetchOutcome) (retryTimes : ℕ)
    (backoff : ℚ) :
    (∀ j, j ≤ retryTimes → (∀ i, i < j → fetch i = .otherError) →
      (fetch j = .emptyContent ∨ fetch j = .restrictedContent) →
      (get_chapter fetch retryTimes backoff).result = none ∧
        (get_chapter fetch retryTimes backoff).calls = j + 1) ∧
    (get_chapter fetch retryTimes backoff).calls ≤ retryTimes + 1 ∧
    ((∀ i, fetch i = .otherError) →
      get_chapter fetch retryTimes backoff =
        ⟨none, retryTimes + 1,
          (List.range retryTimes).map (fun i => backoff * 2 ^ i)⟩) ∧
    (∀ (env : DLEnv) (vols : List Volume) (startId endId : Option String)
        (ignore : List String) (fetchInacc : Bool) (st0 : Storage)
        (failedCid : String),
      env.fetch failedCid = none →
      failedCid ∉ (fixVols env vols st0 "").2.1.existing_ids →
      (∀ cid ∈ extract_chapter_ids (fixVols env vols st0 "").1 startId
          endId ignore fetchInacc,
        cid ≠ failedCid → (env.fetch cid).map Chapter.id = some cid) →
      failedCid ∉ (download_book env vols startId endId ignore fetchInacc
          st0).store.existing_ids ∧
      (∀ cid ∈ extract_chapter_ids (fixVols env vols st0 "").1 startId
          endId ignore fetchInacc,
        cid ≠ failedCid →
        cid ∈ (download_book env vols startId endId ignore fetchInacc
          st0).store.existing_ids)) := by
  refine ⟨?_, ?_, ?_, ?_⟩
  · intro j hj hother hcls
    exact getChapterGo_classified_stops fetch retryTimes backoff j 0
      (by omega) (fun i _ h2 => hother i (by omega))
      (by rw [Nat.zero_add]; exact hcls)
  · simpa using getChapterGo_calls_le fetch retryTimes backoff retryTimes 0
      (by omega)
  · intro hall
    have := getChapterGo_all_transient fetch retryTimes backoff hall
      retryTimes 0 (by omega) (by omega)
    rw [get_chapter, this]
    simp
  · intro env vols startId endId ignore fetchInacc st0 failedCid hfail
      hnot hsucc
    by_cases hplan : (extract_chapter_ids (fixVols env vols st0 "").1
        startId endId ignore fetchInacc).isEmpty
    · have hbook : (download_book env vols startId endId ignore fetchInacc
          st0).store = (fixVols env vols st0 "").2.1 := by
        simp only [download_book]
        rw [if_pos hplan]
      rw [hbook]
      refine ⟨hnot, ?_⟩
      intro cid hcid _
      exact absurd hcid (by simp [List.isEmpty_iff.mp hplan])
    · have hids := download_final_ids env vols startId endId ignore
        fetchInacc st0 hplan
      rw [hids]
      constructor
      · intro hmem
        rcases Finset.mem_union.mp hmem with h | h
        · exact hnot h
        · rcases List.mem_toFinset.mp h with hq
          rcases List.mem_map.mp hq with ⟨ch, hch, hchid⟩
          rcases dlProduce_queue_sources env _ _ _ ch hch with
            ⟨cid, hcid, hfc⟩
          by_cases hcf : cid = failedCid
          · rw [hcf, hfail] at hfc
            exact absurd hfc (by simp)
          · have := hsucc cid hcid hcf
            rw [hfc] at this
            simp at this
            exact hcf (by rw [← this, hchid])
      · intro cid hcid hne
        by_cases hskip : env.cacheChapter = true ∧
            (fixVols env vols st0 "").2.1.need_refetch cid = false
        · refine Finset.mem_union_left _ ?_
          apply List.mem_toFinset.mpr
          apply getAssoc_mem_keys
          rcases hlook : getAssoc (fixVols env vols st0 "").2.1.flags cid
            with _ | b
          · exfalso
            have : (fixVols env vols st0 "").2.1.need_refetch cid = true := by
              simp [Storage.need_refetch, hlook]
            rw [this] at hskip
            exact absurd hskip.2 (by simp)
          · simp
        · have hf := hsucc cid hcid hne
          rcases hfc : env.fetch cid with _ | ch
          · rw [hfc] at hf
            simp at hf
          · rw [hfc] at hf
            simp at hf
            refine Finset.mem_union_right _ ?_
            apply List.mem_toFinset.mpr
            apply List.mem_map.mpr
            exact ⟨ch, dlProduce_mem_queue env _ _ _ cid ch hcid hskip hfc,
              hf⟩

/-- Witness for C3: with retry_times = 2 and backoff_factor = 1, the
always-transient fetch yields None after exactly 3 calls with delays
[1, 2], and the call count is within the bound. -/
theorem chapter_retry_policy_witness :
    get_chapter wFetchFail 2 1 =
      ⟨none, 2 + 1, (List.range 2).map (fun i => (1 : ℚ) * 2 ^ i)⟩ ∧
    (get_chapter wFetchFail 2 1).calls ≤ 2 + 1 :=
  ⟨(chapter_retry_policy wFetchFail 2 1).2.2.1 (fun _ => rfl),
   (chapter_retry_policy wFetchFail 2 1).2.1⟩

/-- Claim C2: incremental reuse is enabled exactly when overwrite is
off, an execution record exists, the stage output file exists, the
recorded config_hash equals the hash of the current options and the
recorded depends_on equals the stages completed earlier in this run;
when any condition fails the stage processes every requested id that is
present in the input store (full recompute). -/
theorem incremental_eligibility (hashFn : List (String × String) → String)
    (overwrite : Bool) (record : Option ExecRecord) (outputFileOk : Bool)
    (options : List (String × String)) (completed : List String)
    (outExists cleanUpstream chapSet inExists : Finset String) :
    (pc_is_incremental hashFn overwrite record outputFileOk options
        completed = true ↔
      overwrite = false ∧ ∃ r, record = some r ∧ outputFileOk = true ∧
        r.config_hash = some (hashFn options) ∧
        r.depends_on = some completed) ∧
    (pc_is_incremental hashFn overwrite record outputFileOk options
        completed = false →
      pc_to_process chapSet
        (pc_reusable (pc_is_incremental hashFn overwrite record
          outputFileOk options completed) outExists cleanUpstream chapSet)
        (pc_missing_input chapSet inExists) = chapSet ∩ inExists) := by
  constructor
  · unfold pc_is_incremental
    cases overwrite with
    | true => simp
    | false =>
      cases record with
      | none => simp
      | some r =>
        by_cases hout : outputFileOk
        · by_cases hhash : r.config_hash = some (hashFn options)
          · simp [hout, hhash]
          · simp [hout, hhash]
        · simp [hout]
  · intro hinc
    simp only [pc_to_process, pc_reusable, pc_missing_input, hinc,
      Bool.false_eq_true, if_false, Finset.sdiff_empty]
    exact Finset.sdiff_sdiff_self_left chapSet inExists

/-- Witness for C2: overwrite forces a full recompute of the requested
ids present in the input store. -/
theorem incremental_eligibility_witness :
    pc_to_process {"a", "b"}
      (pc_reusable (pc_is_incremental (fun _ => "h") true none false [] [])
        ∅ ∅ {"a", "b"})
      (pc_missing_input {"a", "b"} {"a"}) =
      ({"a", "b"} : Finset String) ∩ {"a"} :=
  (incremental_eligibility (fun _ => "h") true none false [] []
    ∅ ∅ {"a", "b"} {"a"}).2 (by decide)

/-- Claim C7 fails as stated: a failing stage is only logged; the
caller of process_book observes exactly the same outcome (a normal
return, no exception, no error result) as for a successful run. -/
theorem process_book_swallows_counterexample :
    (process_book true [] none none [] false
      [⟨"clean", fun v => v, true⟩]).raisedToCaller = none ∧
    (process_book true [] none none [] false
      [⟨"clean", fun v => v, true⟩]).loggedFailure = some "clean" ∧
    (process_book true [] none none [] false
        [⟨"clean", fun v => v, true⟩]).raisedToCaller =
      (process_book true [] none none [] false
        [⟨"clean", fun v => v, false⟩]).raisedToCaller :=
  ⟨rfl, rfl, rfl⟩

theorem pcLoop_cons (chapIds : List String) (chapSet : Finset String)
    (s : PBStage) (stagesRest : List PBStage) (vols : List Volume)
    (prevOut : String) (completed : List String) :
    pcLoop chapIds chapSet (s :: stagesRest) vols prevOut completed =
      if s.fails then
        ([⟨s.name, chapIds, chapSet, prevOut, completed⟩], completed,
          some s.name)
      else
        let r := pcLoop chapIds chapSet stagesRest (s.transformVolumes vols)
          (String.append (String.append "chapter." s.name) ".sqlite")
          (completed ++ [s.name])
        (⟨s.name, chapIds, chapSet, prevOut, completed⟩ :: r.1, r.2) :=
  rfl

theorem pcLoop_clean_then_fail (chapIds : List String)
    (chapSet : Finset String) (pre : List PBStage)
    (hpre : ∀ s ∈ pre, s.fails = false) (s0 : PBStage)
    (hs0 : s0.fails = true) (post : List PBStage) :
    ∀ (vols : List Volume) (prevOut : String) (completed : List String),
      (pcLoop chapIds chapSet (pre ++ s0 :: post) vols prevOut
          completed).2.1 = completed ++ pre.map PBStage.name ∧
      ((pcLoop chapIds chapSet (pre ++ s0 :: post) vols prevOut
          completed).1).map StageCall.name =
        pre.map PBStage.name ++ [s0.name] ∧
      (pcLoop chapIds chapSet (pre ++ s0 :: post) vols prevOut
          completed).2.2 = some s0.name := by
  induction pre with
  | nil =>
    intro vols prevOut completed
    rw [List.nil_append, pcLoop_cons, if_pos hs0]
    exact ⟨by simp, by simp, rfl⟩
  | cons s rest ih =>
    intro vols prevOut completed
    have hsf : s.fails = false := hpre s (by simp)
    have hrest : ∀ s ∈ rest, s.fails = false :=
      fun x hx => hpre x (by simp [hx])
    have hih := ih hrest (s.transformVolumes vols)
      (String.append (String.append "chapter." s.name) ".sqlite")
      (completed ++ [s.name])
    rw [List.cons_append, pcLoop_cons, if_neg (by simp [hsf])]
    dsimp only
    refine ⟨?_, ?_, ?_⟩
    · rw [hih.1]
      simp
    · rw [List.map_cons, hih.2.1]
      simp
    · exact hih.2.2

/-- Claim C7 amended: a stage failure stops the run at that stage —
later stages are neither called nor recorded — and the offending stage
name is logged, but process_book catches the exception and returns
normally, so the caller receives no exception or error result; a
missing raw input is reported through ui.on_missing before any stage
runs. -/
theorem process_book_failure_containment (vols : List Volume)
    (startId endId : Option String) (ignore : List String)
    (fetchInacc : Bool) (pre post : List PBStage) (s0 : PBStage)
    (hpre : ∀ s ∈ pre, s.fails = false) (hs0 : s0.fails = true) :
    (process_book true vols startId endId ignore fetchInacc
      (pre ++ s0 :: post)).raisedToCaller = none ∧
    (process_book true vols startId endId ignore fetchInacc
      (pre ++ s0 :: post)).recorded = pre.map PBStage.name ∧
    ((process_book true vols startId endId ignore fetchInacc
      (pre ++ s0 :: post)).calls).map StageCall.name =
      pre.map PBStage.name ++ [s0.name] ∧
    (process_book true vols startId endId ignore fetchInacc
      (pre ++ s0 :: post)).loggedFailure = some s0.name ∧
    (process_book false vols startId endId ignore fetchInacc
      (pre ++ s0 :: post)).uiMissingRaw = true ∧
    (process_book false vols startId endId ignore fetchInacc
      (pre ++ s0 :: post)).calls = [] := by
  have hl := pcLoop_clean_then_fail
    (extract_chapter_ids vols startId endId ignore fetchInacc)
    (extract_chapter_ids vols startId endId ignore fetchInacc).toFinset
    pre hpre s0 hs0 post vols "chapter.raw.sqlite" []
  simp only [process_book]
  refine ⟨rfl, ?_, ?_, ?_, rfl, rfl⟩
  · simpa using hl.1
  · exact hl.2.1
  · exact hl.2.2

/-- Witness for the amended C7: one clean stage followed by a failing
stage; the third stage never runs. -/
theorem process_book_failure_containment_witness :
    (process_book true [] none none [] false
      [⟨"s1", fun v => v, false⟩, ⟨"bad", fun v => v, true⟩,
       ⟨"s3", fun v => v, false⟩]).raisedToCaller = none ∧
    (process_book true [] none none [] false
      [⟨"s1", fun v => v, false⟩, ⟨"bad", fun v => v, true⟩,
       ⟨"s3", fun v => v, false⟩]).recorded =
      [⟨"s1", fun v => v, false⟩].map PBStage.name ∧
    ((process_book true [] none none [] false
      [⟨"s1", fun v => v, false⟩, ⟨"bad", fun v => v, true⟩,
       ⟨"s3", fun v => v, false⟩]).calls).map StageCall.name =
      [⟨"s1", fun v => v, false⟩].map PBStage.name ++ ["bad"] ∧
    (process_book true [] none none [] false
      [⟨"s1", fun v => v, false⟩, ⟨"bad", fun v => v, true⟩,
       ⟨"s3", fun v => v, false⟩]).loggedFailure = some "bad" ∧
    (process_book false [] none none [] false
      [⟨"s1", fun v => v, false⟩, ⟨"bad", fun v => v, true⟩,
       ⟨"s3", fun v => v, false⟩]).uiMissingRaw = true ∧
    (process_book false [] none none [] false
      [⟨"s1", fun v => v, false⟩, ⟨"bad", fun v => v, true⟩,
       ⟨"s3", fun v => v, false⟩]).calls = [] :=
  process_book_failure_containment [] none none [] false
    [⟨"s1", fun v => v, false⟩] [⟨"s3", fun v => v, false⟩]
    ⟨"bad", fun v => v, true⟩ (by intro s hs; simp at hs; rw [hs]) rfl

theorem pcLoop_selection_constant (chapIds : List String)
    (chapSet : Finset String) (stages : List PBStage) :
    ∀ (vols : List Volume) (prevOut : String) (completed : List String),
      ∀ call ∈ (pcLoop chapIds chapSet stages vols prevOut completed).1,
        call.chapIds = chapIds ∧ call.chapSet = chapSet := by
  induction stages with
  | nil =>
    intro vols prevOut completed call hcall
    simp [pcLoop] at hcall
  | cons s rest ih =>
    intro vols prevOut completed call hcall
    by_cases hf : s.fails = true
    · rw [pcLoop_cons, if_pos hf] at hcall
      dsimp only at hcall
      rcases List.mem_singleton.mp hcall with rfl
      exact ⟨rfl, rfl⟩
    · rw [pcLoop_cons, if_neg hf] at hcall
      dsimp only at hcall
      rcases List.mem_cons.mp hcall with rfl | hcall
      · exact ⟨rfl, rfl⟩
      · exact ih (s.transformVolumes vols)
          (String.append (String.append "chapter." s.name) ".sqlite")
          (completed ++ [s.name]) call hcall

/-- Claim C10: the requested chapter-id list and set are computed once
from the raw book metadata before the stage loop; every stage call in
the run — even after stages transform the book metadata — receives
exactly that selection. -/
theorem selection_fixed_per_run (vols : List Volume)
    (startId endId : Option String) (ignore : List String)
    (fetchInacc : Bool) (stages : List PBStage) :
    ∀ call ∈ (process_book true vols startId endId ignore fetchInacc
        stages).calls,
      call.chapIds = extract_chapter_ids vols startId endId ignore
        fetchInacc ∧
      call.chapSet = (extract_chapter_ids vols startId endId ignore
        fetchInacc).toFinset := by
  intro call hcall
  simp only [process_book] at hcall
  exact pcLoop_selection_constant _ _ stages vols "chapter.raw.sqlite" []
    call hcall

/-- Witness for C10: a stage whose transform erases all volumes still
receives the selection derived from the raw metadata. -/
theorem selection_fixed_per_run_witness :
    (⟨"s1", ["b"], {"b"}, "chapter.raw.sqlite", []⟩ : StageCall).chapIds =
      extract_chapter_ids [⟨[⟨some "b", true⟩]⟩] none none [] false ∧
    (⟨"s1", ["b"], {"b"}, "chapter.raw.sqlite", []⟩ : StageCall).chapSet =
      (extract_chapter_ids [⟨[⟨some "b", true⟩]⟩] none none [] false).toFinset :=
  selection_fixed_per_run [⟨[⟨some "b", true⟩]⟩] none none [] false
    [⟨"s1", fun _ => [], false⟩]
    ⟨"s1", ["b"], {"b"}, "chapter.raw.sqlite", []⟩ (by decide)

theorem limiterStep_bounds (rate capacity : ℚ) (hr : 0 ≤ rate)
    (hc : 0 ≤ capacity) (st : LimiterState) (ev : LimiterEvent)
    (hst : 0 ≤ st.tokens ∧ st.tokens ≤ capacity)
    (hev : eventOk ev = true) :
    0 ≤ (limiterStep rate capacity st ev).tokens ∧
      (limiterStep rate capacity st ev).tokens ≤ capacity := by
  cases ev with
  | acquire e =>
    have he : 0 ≤ e := of_decide_eq_true hev
    have ht0 : 0 ≤ min capacity (st.tokens + e * rate) :=
      le_min hc (add_nonneg hst.1 (mul_nonneg he hr))
    have htc : min capacity (st.tokens + e * rate) ≤ capacity :=
      min_le_left _ _
    by_cases h1 : 1 ≤ min capacity (st.tokens + e * rate)
    · simp only [limiterStep, h1, if_true]
      exact ⟨le_max_left _ _, max_le hc (by linarith)⟩
    · simp only [limiterStep, h1, if_false]
      exact ⟨ht0, htc⟩
  | lateDebit =>
    exact ⟨le_max_left _ _, max_le hc (by linarith [hst.2])⟩

theorem limiter_foldl_bounds (rate capacity : ℚ) (hr : 0 ≤ rate)
    (hc : 0 ≤ capacity) :
    ∀ (evs : List LimiterEvent) (st : LimiterState),
      0 ≤ st.tokens ∧ st.tokens ≤ capacity →
      (∀ ev ∈ evs, eventOk ev = true) →
      0 ≤ (evs.foldl (limiterStep rate capacity) st).tokens ∧
        (evs.foldl (limiterStep rate capacity) st).tokens ≤ capacity := by
  intro evs
  induction evs with
  | nil => intro st hst _; exact hst
  | cons ev rest ih =>
    intro st hst hok
    rw [List.foldl_cons]
    exact ih _ (limiterStep_bounds rate capacity hr hc st ev hst
      (hok ev (by simp)))
      (fun e he => hok e (by simp [he]))

/-- Claim C9: across every sequence of wait() sections with
nonnegative elapsed times, the token count stays within [0, capacity]
at every intermediate state — the refill is capped at capacity and
both debit sites clamp at zero. -/
theorem token_bucket_bounds (rate capacity : ℚ)
    (evs : List LimiterEvent) (hr : 0 ≤ rate) (hc : 0 ≤ capacity)
    (hevs : ∀ ev ∈ evs, eventOk ev = true) :
    ∀ n : ℕ, 0 ≤ (limiterRun rate capacity (evs.take n)).tokens ∧
      (limiterRun rate capacity (evs.take n)).tokens ≤ capacity := by
  intro n
  exact limiter_foldl_bounds rate capacity hr hc (evs.take n) ⟨capacity⟩
    ⟨hc, le_refl _⟩
    (fun ev hev => hevs ev ((evs.take_sublist n).mem hev))

/-- Witness for C9 on a concrete burst-2, rate-1 run. -/
theorem token_bucket_bounds_witness :
    0 ≤ (limiterRun 1 2 ([.acquire 0, .acquire 5, .lateDebit,
        .lateDebit].take 4)).tokens ∧
    (limiterRun 1 2 ([.acquire 0, .acquire 5, .lateDebit,
        .lateDebit].take 4)).tokens ≤ 2 :=
  token_bucket_bounds 1 2 [.acquire 0, .acquire 5, .lateDebit, .lateDebit]
    (by norm_num) (by norm_num) (by decide) 4

end NovelKit
